import Mathlib

/-!
Verification development for the `dix` build-time dependency-injection compiler.

The Go sources are embedded shallowly:

* `Dependency`, `Factory`, `DIConfig`-as-`Container` mirror the type
  definitions (`types.go`): a `DIConfig` is a `map[string]*Factory`; a Go map
  is modelled as its enumeration, an association list with pairwise distinct
  keys whose order stands for the (runtime-chosen) iteration order.
* `BuildOrder` mirrors the scheduler (`generator.go`): Kahn's algorithm with
  the Final/Disable edge checks, the cycle check, and the final-partition
  post-processing.  The Go `indegree` map has exactly the container's keys as
  its keys (inserted in container-enumeration order), so it is modelled as a
  valuation function `String → Int` together with the key list `keysOf c`;
  the adjacency map `graph` is modelled as a function `String → List String`.
* Go returning `(T, error)` is modelled as `Except`; a Go runtime panic
  (nil-pointer dereference on `container[dep.Name]` for an absent key) is
  modelled by the distinguished `BuildErr.nilPanic` outcome.
-/

instance {α β : Type} [DecidableEq α] [DecidableEq β] : DecidableEq (Except α β)
  | .error a, .error b =>
    if h : a = b then .isTrue (by rw [h])
    else .isFalse (by intro hc; cases hc; exact h rfl)
  | .error _, .ok _ => .isFalse (by intro h; cases h)
  | .ok _, .error _ => .isFalse (by intro h; cases h)
  | .ok a, .ok b =>
    if h : a = b then .isTrue (by rw [h])
    else .isFalse (by intro hc; cases hc; exact h rfl)

/-! ### Go string primitives

The Go `strings` functions used by the sources, modelled over the character
list of a `String` (so that all definitions reduce inside the kernel).
`strings.TrimSpace` trims Unicode white space; only the ASCII white-space
characters are modelled, which agrees with Go on all inputs the claims use. -/

/-- ASCII white space, as trimmed by `strings.TrimSpace`. -/
def isSpaceGo (ch : Char) : Bool :=
  ch == ' ' || ch == '\t' || ch == '\n' || ch == '\r' || ch == '\x0b' || ch == '\x0c'

/-- `strings.TrimSpace`. -/
def goTrim (s : String) : String :=
  String.mk (((s.data.dropWhile isSpaceGo).reverse.dropWhile isSpaceGo).reverse)

/-- `strings.HasPrefix`. -/
def goHasPre (s pre : String) : Bool := pre.data.isPrefixOf s.data

/-- Worker for `goSplit`: one pass over the characters; `fuel` only makes
the recursion structural (a caller passing `fuel ≥ length of the input`
never hits the `0` case because every step consumes at least one
character). -/
def splitL (sep : List Char) : Nat → List Char → List Char → List (List Char)
  | _, [], acc => [acc.reverse]
  | 0, s, acc => [acc.reverse ++ s]
  | fuel + 1, c :: cs, acc =>
    if sep.isPrefixOf (c :: cs) then
      acc.reverse :: splitL sep fuel ((c :: cs).drop sep.length) []
    else splitL sep fuel cs (c :: acc)

/-- `strings.Split` with a nonempty separator. -/
def goSplit (s sep : String) : List String :=
  (splitL sep.data (s.data.length + 1) s.data []).map String.mk

example : goSplit "NewDB -> db" "->" = ["NewDB ", " db"] := rfl
example : goSplit "NewDB" "->" = ["NewDB"] := rfl
example : goSplit "^x" "^" = ["", "x"] := rfl
example : goSplit "a,b , c" "," = ["a", "b ", " c"] := rfl
example : goTrim "  a b\t" = "a b" := rfl

/-- Go struct `Dependency` (types.go): a resolved dependency reference. -/
structure Dependency where
  Name : String
  Standalone : Bool
deriving DecidableEq, Repr

/-- Go struct `Factory` (types.go).  The scanner-era struct lacks
`Alias/Final/Disable/File/Pos`; Go zero values (`""`/`false`) stand for the
absent fields, so one structure serves both file generations. -/
structure Factory where
  Alias : String
  Function : String
  Deps : List Dependency
  Module : String
  Final : Bool
  Disable : Bool
  File : String
  Pos : String
deriving DecidableEq, Repr

/-- A `Factory` with all fields at their Go zero values. -/
def F0 : Factory := ⟨"", "", [], "", false, false, "", ""⟩

/-- A `DIConfig.Container` (`map[string]*Factory`), represented by its
enumeration: an association list whose key order models the map iteration
order.  Well-formedness (`(keysOf c).Nodup`) models the map's key uniqueness. -/
abbrev Container := List (String × Factory)

/-- Go map retrieval `m[k]` as an option (first binding wins; with nodup keys
this is exactly map lookup). -/
def getM {β : Type} (k : String) : List (String × β) → Option β
  | [] => none
  | p :: ps => if p.1 = k then some p.2 else getM k ps

/-- The key set of a container, in enumeration order. -/
def keysOf (c : Container) : List String := c.map Prod.fst

/-- The dependency-name list of the factory registered under `a`
(empty when `a` is not a key). -/
def depsOf (c : Container) (a : String) : List String :=
  match getM a c with
  | some f => f.Deps.map Dependency.Name
  | none => []

/-- Outcomes of `BuildOrder` other than a successful order.  The first two
mirror the `fmt.Errorf` returns; `circular` mirrors the cycle error;
`nilPanic d` models the Go runtime panic raised by
`container[dep.Name].Final` when `dep.Name` is not a key of the container
(a nil `*Factory` dereference), which aborts the process rather than
returning an error. -/
inductive BuildErr where
  | finalDep (dep dependent : String)
  | disableDep (dep dependent : String)
  | circular
  | nilPanic (dep : String)
deriving DecidableEq, Repr

/-- Inner loop of `BuildOrder`'s first phase (`for _, dep := range f.Deps`,
generator.go): checks the Final/Disable constraints for each dependency of
the factory registered under `a`, appends the edge `dep.Name → a` to the
adjacency map and increments `indegree[a]`. -/
def addDeps (c : Container) (a : String) :
    List Dependency → (String → Int) → (String → List String) →
    Except BuildErr ((String → Int) × (String → List String))
  | [], ind, g => .ok (ind, g)
  | d :: ds, ind, g =>
    match getM d.Name c with
    | none => .error (.nilPanic d.Name)
    | some fd =>
      if fd.Final then .error (.finalDep d.Name a)
      else if fd.Disable then .error (.disableDep d.Name a)
      else
        addDeps c a ds (fun x => if x = a then ind x + 1 else ind x)
          (fun x => if x = d.Name then g x ++ [a] else g x)

/-- Outer loop of `BuildOrder`'s first phase
(`for alias, f := range container`): the container is traversed in
enumeration order; `indegree` entries are created implicitly (the valuation
starts at `0` everywhere, matching `indegree[alias] = 0`). -/
def buildGraphAux (c : Container) :
    List (String × Factory) → (String → Int) → (String → List String) →
    Except BuildErr ((String → Int) × (String → List String))
  | [], ind, g => .ok (ind, g)
  | (a, f) :: rest, ind, g =>
    match addDeps c a f.Deps ind g with
    | .error e => .error e
    | .ok r => buildGraphAux c rest r.1 r.2

/-- Phase one of `BuildOrder`: build indegree valuation and adjacency map. -/
def buildGraph (c : Container) :
    Except BuildErr ((String → Int) × (String → List String)) :=
  buildGraphAux c c (fun _ => 0) (fun _ => [])

/-- One pop's worth of decrements (`for _, next := range graph[node]`):
decrement each successor in slice order and collect, in encounter order, the
successors whose indegree reaches exactly `0` (these are appended to the
queue). -/
def decAll (ind : String → Int) : List String → (String → Int) × List String
  | [] => (ind, [])
  | n :: ns =>
    let r := decAll (fun x => if x = n then ind x - 1 else ind x) ns
    if ind n - 1 = 0 then (r.1, n :: r.2) else r

/-- The Kahn queue-draining loop (`for len(queue) > 0`).  The Go loop needs
no fuel; here `fuel` is a structural bound on the number of pops.  Each loop
iteration pops exactly one node and appends it to `order`, every popped node
is a container key, and no key is ever popped twice (each key is enqueued at
most once: seeds are distinct, and a key is pushed only when its indegree
transitions to exactly `0`, which the decrement-only dynamics allow at most
once); hence the Go loop executes at most `|container|` iterations and the
caller's fuel `c.length + 1` is never exhausted.  This sufficiency is proved,
not assumed: the drain lemmas below show the queue is empty whenever the fuel
runs out. -/
def drain (g : String → List String) :
    Nat → List String → (String → Int) → List String → List String
  | 0, _, _, order => order
  | _ + 1, [], _, order => order
  | fuel + 1, node :: rest, ind, order =>
    let r := decAll ind (g node)
    drain g fuel (rest ++ r.2) r.1 (order ++ [node])

/-- `container[a].Final` as used by the final-partition loop (an order entry
is always a container key there, so the `none` branch is unreachable). -/
def isFinalIn (c : Container) (a : String) : Bool :=
  match getM a c with
  | some f => f.Final
  | none => false

/-- The final-partition post-processing loop (`for _, alias := range order`):
split the Kahn order into non-Final then Final nodes, preserving relative
order in each group. -/
def splitFinals (c : Container) (order : List String) :
    List String × List String :=
  order.foldl
    (fun acc a =>
      if isFinalIn c a then (acc.1, acc.2 ++ [a]) else (acc.1 ++ [a], acc.2))
    ([], [])

/-- Phase one plus queue seeding plus draining: everything of `BuildOrder`
up to (not including) the cycle check.  The seed queue iterates the
`indegree` map, whose keys are the container keys in enumeration order. -/
def kahnRun (c : Container) : Except BuildErr (List String) :=
  match buildGraph c with
  | .error e => .error e
  | .ok r =>
    .ok (drain r.2 (c.length + 1) ((keysOf c).filter fun n => r.1 n == 0) r.1 [])

/-- `BuildOrder` (generator.go): Kahn's algorithm, cycle check, then the
stable partition moving Final nodes to the end. -/
def BuildOrder (c : Container) : Except BuildErr (List String) :=
  match kahnRun c with
  | .error e => .error e
  | .ok order =>
    if order.length = c.length then
      let p := splitFinals c order
      .ok (p.1 ++ p.2)
    else .error .circular

example :
    BuildOrder [("db", F0), ("cache", { F0 with Deps := [⟨"db", false⟩] })] =
      .ok ["db", "cache"] := by decide

example :
    BuildOrder [("a", { F0 with Deps := [⟨"b", false⟩] }),
                ("b", { F0 with Deps := [⟨"a", false⟩] })] =
      .error .circular := by decide

example :
    BuildOrder [("a", { F0 with Deps := [⟨"b", false⟩] }),
                ("b", { F0 with Final := true })] =
      .error (.finalDep "b" "a") := by decide

example :
    BuildOrder [("f", { F0 with Final := true }), ("a", F0)] =
      .ok ["a", "f"] := by decide

/-! ### Code emitter (generator.go: `GenContext`, `generateDepExpr`, `GenerateCode`) -/

/-- Go struct `GenContext`: both maps keep insertion order (the enumeration
model of a Go map). -/
structure GenCtx where
  ImportID : List (String × String)
  Container : List (String × String)
  Counter : Nat
deriving DecidableEq, Repr

/-- `GenContext.GenUID`: bump the counter and produce `id_<n>`. -/
def genUID (c : GenCtx) : GenCtx × String :=
  ({ c with Counter := c.Counter + 1 }, "id_" ++ toString (c.Counter + 1))

/-- `GenContext.ResolveImport`: allocate (once) and return the import alias
for a module path. -/
def resolveImport (c : GenCtx) (module : String) : GenCtx × String :=
  match getM module c.ImportID with
  | some a => (c, a)
  | none =>
    let r := genUID c
    ({ r.1 with ImportID := c.ImportID ++ [(module, r.2)] }, r.2)

/-- The fragment of `go/ast` expressions the emitter produces: plain
identifiers and `modAlias.Fn(args...)` calls. -/
inductive Expr where
  | ident (name : String)
  | call (modAlias fn : String) (args : List Expr)

/-- Sequential argument generation: thread the mutable `GenContext` through
`step` over a dependency list, collecting the produced expressions in order
(`args = append(args, generateDepExpr(ctx, sub, config))`). -/
def genArgsWith (step : GenCtx → Dependency → Option (GenCtx × Expr)) :
    GenCtx → List Dependency → Option (GenCtx × List Expr)
  | ctx, [] => some (ctx, [])
  | ctx, d :: ds =>
    match step ctx d with
    | none => none
    | some p =>
      match genArgsWith step p.1 ds with
      | none => none
      | some q => some (q.1, p.2 :: q.2)

/-- `generateDepExpr` (generator.go).  The Go recursion is unbounded; `fuel`
bounds the nesting depth of standalone expansions, and `none` models a
non-returning execution: either fuel exhaustion (the Go code diverging on a
cyclic standalone chain) or the nil-pointer panic on
`config.Container[dep.Name]` for an unresolved name.  The termination
theorem below shows that whenever `BuildOrder` succeeds the fuel
`c.length + 1` used by `GenerateCode` is never exhausted. -/
def genDepExpr (c : Container) : Nat → GenCtx → Dependency → Option (GenCtx × Expr)
  | 0, _, _ => none
  | fuel + 1, ctx, d =>
    if d.Standalone then
      match getM d.Name c with
      | none => none
      | some f =>
        let ri := resolveImport ctx f.Module
        match genArgsWith (fun cx sub => genDepExpr c fuel cx sub) ri.1 f.Deps with
        | none => none
        | some p => some (p.1, .call ri.2 f.Function p.2)
    else
      some (ctx, .ident ((getM d.Name ctx.Container).getD ""))

/-- Go map assignment `m[k] = v`: overwrite in place, or append a new
binding (insertion order preserved). -/
def setM (m : List (String × String)) (k v : String) : List (String × String) :=
  if (getM k m).isSome then m.map (fun p => if p.1 = k then (k, v) else p)
  else m ++ [(k, v)]

/-- One emitted declaration: `//line File Pos` directive plus
`var name = rhs`. -/
structure GDecl where
  name : String
  rhs : Expr
  File : String
  Pos : String

/-- The body-emission loop of `GenerateCode` (`for _, item := range order`):
`id := factory.Alias`, register it in `ctx.Container`, generate the argument
expressions, resolve the import alias, and emit the declaration and the
keep-alive argument. -/
def genLoop (c : Container) (fuel : Nat) :
    List String → GenCtx → List GDecl → List String →
    Option (GenCtx × List GDecl × List String)
  | [], ctx, decls, marks => some (ctx, decls, marks)
  | item :: rest, ctx, decls, marks =>
    match getM item c with
    | none => none
    | some f =>
      let ctx1 : GenCtx := { ctx with Container := setM ctx.Container item f.Alias }
      match genArgsWith (fun cx sub => genDepExpr c fuel cx sub) ctx1 f.Deps with
      | none => none
      | some p =>
        let ri := resolveImport p.1 f.Module
        genLoop c fuel rest ri.1
          (decls ++ [⟨f.Alias, .call ri.2 f.Function p.2, f.File, f.Pos⟩])
          (marks ++ [f.Alias])

/-- `sanitizeModulePath` (generator.go).  Modelled exactly for the two cases
that occur for scanned files (the path equals the root, or lies strictly
under it); for other inputs Go's `filepath.Rel` produces a `..`-relative
join (or an error, falling back to `moduleName`), which is collapsed to the
`moduleName` fallback here — no claim depends on that branch. -/
def sanitizeModulePath (absPath root moduleName : String) : String :=
  if absPath = root then moduleName
  else if goHasPre absPath (root ++ "/") then
    moduleName ++ "/" ++ String.mk (absPath.data.drop (root.data.length + 1))
  else moduleName

/-- The module-normalization loop of `GenerateCode`
(`for _, f := range config.Container { f.Module = sanitizeModulePath(...) }`). -/
def sanitizeAll (c : Container) (root modN : String) : Container :=
  c.map (fun p => (p.1, { p.2 with Module := sanitizeModulePath p.2.Module root modN }))

/-- The generated file, up to the external pretty-printer: the import
bindings in emission order (the fixed `dix` support import first, then one
binding per distinct module path), the declaration list of the `Root`
function body, and the arguments of the trailing keep-alive `dix.Mark`
call (empty iff no declaration was emitted, in which case no call is
emitted). -/
structure GenFile where
  imports : List (String × String)
  decls : List GDecl
  markArgs : List String

/-- `GenerateCode` (generator.go): schedule via `BuildOrder`, normalize
module paths, emit one declaration per ordered item, the keep-alive call and
the import section.  The outer `Option` models non-returning executions of
the unbounded Go recursion (see `genDepExpr`); `Except` models the
`(string, error)` return. -/
def GenerateCode (root modN : String) (c : Container) :
    Option (Except BuildErr GenFile) :=
  match BuildOrder c with
  | .error e => some (.error e)
  | .ok order =>
    let c2 := sanitizeAll c root modN
    match genLoop c2 (c.length + 1) order ⟨[], [], 0⟩ [] [] with
    | none => none
    | some r =>
      some (.ok
        ⟨(if r.1.ImportID.isEmpty then []
          else ("dix", "github.com/smtdfc/dix") :: r.1.ImportID.map (fun p => (p.2, p.1))),
         r.2.1, r.2.2⟩)

/-- The spec's end-to-end wiring example, reduced to the emitter: standalone
`cache` at the `server` use site expands inline while `cache` keeps its own
top-level declaration. -/
def exampleCfg : Container :=
  [("db", { F0 with
            Alias := "db", Function := "NewDB", Module := "/r/pkg" }),
   ("server", { F0 with
                Alias := "server", Function := "NewServer", Module := "/r/pkg",
                Deps := [⟨"db", false⟩, ⟨"cache", true⟩] }),
   ("cache", { F0 with
               Alias := "cache", Function := "NewCache", Module := "/r/pkg",
               Deps := [⟨"db", false⟩] })]

/-! ### Scanner (scan.go: directive parsing and the two graph-building passes) -/

/-- The two annotation kinds the comment scanner produces
(`parseFileComments` only dispatches on the keys `factory` and `wire`;
the `FinalAnnotation`/`DisableAnnotation` structs have no parser). -/
inductive Ann where
  | factory (path fn als : String)
  | wire (path target : String) (deps : List String)
deriving DecidableEq, Repr

/-- `parseFactoryAnnotation` (scan.go): split the value on `"->"` and trim
both parts.  The Go code indexes `splitted[1]` unconditionally, so a value
without `"->"` raises an index-out-of-range runtime panic, modelled as
`none`; a value with two or more arrows silently ignores the remainder, and
empty parts are accepted. -/
def parseFactoryAnn (path value : String) : Option Ann :=
  match goSplit (goTrim value) "->" with
  | s0 :: s1 :: _ => some (.factory path (goTrim s0) (goTrim s1))
  | _ => none

/-- The regular expression `^([A-Za-z0-9_]+)\(([^)]*)\)$` of
`parseWireAnnotation`, as a handwritten matcher: a nonempty word of
alphanumeric/underscore characters, `'('`, any characters other than `')'`,
then `')'` at the very end.  Returns the two capture groups. -/
def matchWireShape (s : String) : Option (String × String) :=
  let cs := s.data
  let nm := cs.takeWhile (fun ch => ch.isAlphanum || ch == '_')
  match nm, cs.dropWhile (fun ch => ch.isAlphanum || ch == '_') with
  | [], _ => none
  | _, '(' :: rest =>
    match rest.reverse with
    | ')' :: innerRev =>
      if innerRev.any (fun ch => ch == ')') then none
      else some (String.mk nm, String.mk innerRev.reverse)
    | _ => none
  | _, _ => none

/-- `parseWireAnnotation` (scan.go): match the wire shape against the
trimmed value, then split the dependency list on `","` trimming each entry
(empty parentheses give no dependencies).  The Go code indexes `m[1]` on the
`nil` result of a failed regexp match, raising a runtime panic, modelled as
`none`. -/
def parseWireAnn (path value : String) : Option Ann :=
  match matchWireShape (goTrim value) with
  | none => none
  | some m =>
    if goTrim m.2 == "" then some (.wire path m.1 [])
    else some (.wire path m.1 ((goSplit m.2 ",").map goTrim))

example : parseFactoryAnn "p" "NewDB -> db" = some (.factory "p" "NewDB" "db") := rfl
example : parseFactoryAnn "p" "NewDB" = none := rfl
example : parseWireAnn "p" "server(db, ^cache)" =
    some (.wire "p" "server" ["db", "^cache"]) := rfl
example : parseWireAnn "p" "server" = none := rfl
example : parseWireAnn "p" "server()" = some (.wire "p" "server" []) := rfl

/-- The fatal errors of the graph-building phase of
`ScanProjectAndGenerateDI` (scan.go).  Each constructor carries exactly the
data interpolated into the corresponding `errors.New` message; `errMsg`
below reproduces the message strings. -/
inductive ScanErr where
  | duplicateAliasIn (als mod : String)
  | aliasUsedBy (als mod : String)
  | unresolved (dep target mod : String)
deriving DecidableEq, Repr

/-- The exact Go error message of each `ScanErr`. -/
def errMsg : ScanErr → String
  | .duplicateAliasIn a m => "Duplicate Alias " ++ a ++ " in " ++ m
  | .aliasUsedBy a m => "Alias " ++ a ++ " used by " ++ m
  | .unresolved d t m => "Can't resolve dependency " ++ d ++ " of " ++ t ++ " in " ++ m

/-- `filepath.Join(moduleName, path)` for the clean, nonempty path components
the scanner produces (no `..`/`.` cleaning modelled; no claim uses such
components). -/
def joinPath (a b : String) : String :=
  if a = "" then b else if b = "" then a else a ++ "/" ++ b

/-- Pass 1 of the graph builder (scan.go, first `for _, a := range anns`
loop): insert one `Factory` node per factory annotation, keyed by alias.
On an alias collision the stored (module-joined) path is compared with the
new annotation's raw path to pick between the two duplicate-alias messages.
The scanner-era `Factory` has no `Alias/Final/Disable/File/Pos` fields;
their Go zero values are used. -/
def buildFactories (modName : String) : List Ann → Container → Except ScanErr Container
  | [], acc => .ok acc
  | .factory path fn als :: rest, acc =>
    match getM als acc with
    | some existing =>
      if existing.Module = path then .error (.duplicateAliasIn als existing.Module)
      else .error (.aliasUsedBy als existing.Module)
    | none =>
      buildFactories modName rest
        (acc ++ [(als, { F0 with Function := fn, Module := joinPath modName path })])
  | .wire _ _ _ :: rest, acc => buildFactories modName rest acc

/-- The inner dependency-resolution loop of pass 2 (`for _, d := range
wire.Deps`): trim, strip a `"^"` standalone marker (Go takes
`strings.Split(depName, "^")[1]`, i.e. the segment after the first caret),
and fail on the first name that is not a container key. -/
def resolveDeps (cont : Container) (target mod : String) :
    List String → Except ScanErr (List Dependency)
  | [] => .ok []
  | d :: ds =>
    let depName := goTrim d
    let p : Bool × String :=
      if goHasPre depName "^" then (true, (goSplit depName "^").getD 1 "")
      else (false, depName)
    if (getM p.2 cont).isSome then
      match resolveDeps cont target mod ds with
      | .error e => .error e
      | .ok rest => .ok (⟨p.2, p.1⟩ :: rest)
    else .error (.unresolved p.2 target mod)

/-- Go map update that keeps the binding's position (mutating the `Factory`
through its pointer). -/
def setF (c : Container) (k : String) (f : Factory) : Container :=
  c.map (fun p => if p.1 = k then (k, f) else p)

/-- Pass 2 of the graph builder (scan.go, second `for _, a := range anns`
loop): for every wire annotation whose target is a key, resolve the
dependency list and overwrite the target's `Deps`; a wire whose target is
not a key is skipped silently. -/
def applyWires : List Ann → Container → Except ScanErr Container
  | [], cont => .ok cont
  | .factory _ _ _ :: rest, cont => applyWires rest cont
  | .wire _ target ds :: rest, cont =>
    match getM target cont with
    | none => applyWires rest cont
    | some f =>
      match resolveDeps cont target f.Module ds with
      | .error e => .error e
      | .ok deps => applyWires rest (setF cont target { f with Deps := deps })

/-- The graph-building phase of `ScanProjectAndGenerateDI` (scan.go, lines
building `diConfig` from the flat annotation list): pass 1 then pass 2.
The filesystem walk, `go.mod` reading and the final `GenerateCode` call are
outside this definition. -/
def buildDIConfig (modName : String) (anns : List Ann) : Except ScanErr Container :=
  match buildFactories modName anns [] with
  | .error e => .error e
  | .ok cont => applyWires anns cont

example :
    buildDIConfig "m"
      [.factory "p" "NewDB" "db", .factory "p" "NewCache" "cache",
       .wire "p" "cache" ["db"]] =
      .ok [("db", { F0 with Function := "NewDB", Module := "m/p" }),
           ("cache", { F0 with
                       Function := "NewCache", Module := "m/p",
                       Deps := [⟨"db", false⟩] })] := by
  decide

example :
    buildDIConfig "m" [.factory "p" "F1" "db", .factory "q" "F2" "db"] =
      .error (.aliasUsedBy "db" "m/p") := rfl

example :
    buildDIConfig "m" [.factory "p" "F1" "db", .wire "p" "db" ["ghost"]] =
      .error (.unresolved "ghost" "db" "m/p") := rfl

example :
    GenerateCode "/r" "m" exampleCfg =
      some (.ok
        ⟨[("dix", "github.com/smtdfc/dix"), ("id_1", "m/pkg")],
         [⟨"db", .call "id_1" "NewDB" [], "", ""⟩,
          ⟨"cache", .call "id_1" "NewCache" [.ident "db"], "", ""⟩,
          ⟨"server", .call "id_1" "NewServer"
            [.ident "db", .call "id_1" "NewCache" [.ident "db"]], "", ""⟩],
         ["db", "cache", "server"]⟩) := rfl

/-! ### Association-list (Go map) lemmas -/

theorem getM_some_mem {β : Type} {l : List (String × β)} {a : String} {b : β}
    (h : getM a l = some b) : (a, b) ∈ l := by
  induction l with
  | nil => simp [getM] at h
  | cons p ps ih =>
    by_cases hp : p.1 = a
    · simp only [getM, hp, if_pos] at h
      cases h
      cases p
      cases hp
      exact .head _
    · simp only [getM, hp, if_neg, ite_false] at h
      exact .tail _ (ih h)

theorem getM_mem_keys {β : Type} {l : List (String × β)} {a : String} {b : β}
    (h : getM a l = some b) : a ∈ l.map Prod.fst :=
  List.mem_map.mpr ⟨(a, b), getM_some_mem h, rfl⟩

theorem getM_isSome_of_mem_keys {β : Type} {l : List (String × β)} {a : String}
    (h : a ∈ l.map Prod.fst) : (getM a l).isSome = true := by
  induction l with
  | nil => simp at h
  | cons p ps ih =>
    by_cases hp : p.1 = a
    · simp [getM, hp]
    · simp only [List.map_cons, List.mem_cons] at h
      rcases h with h | h
      · exact absurd h.symm hp
      · simpa [getM, hp] using ih h

theorem getM_eq_none_of_not_mem {β : Type} {l : List (String × β)} {a : String}
    (h : a ∉ l.map Prod.fst) : getM a l = none := by
  cases hg : getM a l with
  | none => rfl
  | some b => exact absurd (getM_mem_keys hg) h

theorem getM_of_mem {β : Type} {l : List (String × β)} {a : String} {b : β}
    (hnd : (l.map Prod.fst).Nodup) (h : (a, b) ∈ l) : getM a l = some b := by
  induction l with
  | nil => simp at h
  | cons p ps ih =>
    simp only [List.map_cons, List.nodup_cons] at hnd
    rcases List.mem_cons.mp h with h | h
    · cases h
      simp [getM]
    · have hne : p.1 ≠ a := by
        intro he
        exact hnd.1 (he ▸ List.mem_map.mpr ⟨(a, b), h, rfl⟩)
      simpa [getM, hne] using ih hnd.2 h

/-! ### The dependency graph of a container, and the claim-side predicates -/

/-- `Edge c d a`: the factory registered under `a` lists `d` among its
dependency names (the scheduler's edge `d → a`). -/
def Edge (c : Container) (d a : String) : Prop :=
  ∃ f, getM a c = some f ∧ d ∈ f.Deps.map Dependency.Name

/-- Nonempty paths along dependency edges. -/
inductive DepPath (c : Container) : String → String → Prop
  | single {d a : String} : Edge c d a → DepPath c d a
  | cons {d m a : String} : Edge c d m → DepPath c m a → DepPath c d a

/-- The dependency graph contains a cycle. -/
def HasCycle (c : Container) : Prop := ∃ v, DepPath c v v

/-- All edges of the container, as a computable list (used to certify
acyclicity of concrete containers). -/
def edgesList (c : Container) : List (String × String) :=
  (c.map (fun p => p.2.Deps.map (fun d => (d.Name, p.1)))).flatten

theorem edge_mem_edgesList {c : Container} {d a : String} (h : Edge c d a) :
    (d, a) ∈ edgesList c := by
  rcases h with ⟨f, hf, hd⟩
  rcases List.mem_map.mp hd with ⟨dep, hdep, hname⟩
  refine List.mem_flatten.mpr ⟨f.Deps.map (fun d => (d.Name, a)), ?_, ?_⟩
  · exact List.mem_map.mpr ⟨(a, f), getM_some_mem hf, rfl⟩
  · exact List.mem_map.mpr ⟨dep, hdep, by rw [hname]⟩

theorem depPath_rank_lt {c : Container} {rk : String → Nat}
    (hrk : ∀ p ∈ edgesList c, rk p.1 < rk p.2) :
    ∀ {d a : String}, DepPath c d a → rk d < rk a := by
  intro d a h
  induction h with
  | single he => exact hrk _ (edge_mem_edgesList he)
  | cons he _ ih => exact lt_trans (hrk _ (edge_mem_edgesList he)) ih

/-- A rank function strictly increasing along every edge certifies
acyclicity; it lets `decide` discharge `¬ HasCycle` for concrete
containers. -/
theorem no_cycle_of_rank {c : Container} (rk : String → Nat)
    (hrk : ∀ p ∈ edgesList c, rk p.1 < rk p.2) : ¬ HasCycle c := by
  rintro ⟨v, hv⟩
  exact lt_irrefl _ (depPath_rank_lt hrk hv)

/-- Every dependency name of every factory is itself a container key
("every Dependency name keys a Factory in the container"). -/
def ClosedB (c : Container) : Bool :=
  c.all (fun p => p.2.Deps.all (fun d => (getM d.Name c).isSome))

/-- No factory lists a Final- or Disable-flagged factory among its
dependencies. -/
def NoFlagDepB (c : Container) : Bool :=
  c.all (fun p => p.2.Deps.all (fun d =>
    match getM d.Name c with
    | some fd => !fd.Final && !fd.Disable
    | none => true))

theorem closedB_iff {c : Container} :
    ClosedB c = true ↔
      ∀ p ∈ c, ∀ d ∈ p.2.Deps, (getM d.Name c).isSome = true := by
  simp [ClosedB, List.all_eq_true]

theorem noFlagDepB_resolve {c : Container} (h : NoFlagDepB c = true)
    {a : String} {f : Factory} {d : Dependency} {fd : Factory}
    (ha : (a, f) ∈ c) (hd : d ∈ f.Deps) (hfd : getM d.Name c = some fd) :
    fd.Final = false ∧ fd.Disable = false := by
  simp only [NoFlagDepB, List.all_eq_true] at h
  have := h (a, f) ha d hd
  rw [hfd] at this
  simp at this
  exact ⟨this.1, this.2⟩

/-! ### Phase-one lemmas: what a successful `buildGraph` computes -/

/-- Dependency list registered for `v` in an entry list. -/
def entryDeps (l : List (String × Factory)) (v : String) : List Dependency :=
  match getM v l with
  | some f => f.Deps
  | none => []

/-- Names of a dependency list. -/
def depNames (ds : List Dependency) : List String := ds.map Dependency.Name

theorem addDeps_ok {c : Container} {a : String} :
    ∀ {ds : List Dependency} {ind : String → Int} {g : String → List String}
      {ind2 : String → Int} {g2 : String → List String},
      addDeps c a ds ind g = .ok (ind2, g2) →
      (∀ v, ind2 v = ind v + (if v = a then (ds.length : Int) else 0)) ∧
      (∀ x, g2 x = g x ++ List.replicate ((depNames ds).count x) a) ∧
      (∀ d ∈ ds, ∃ fd, getM d.Name c = some fd ∧ fd.Final = false ∧ fd.Disable = false) := by
  intro ds
  induction ds with
  | nil =>
    intro ind g ind2 g2 h
    simp only [addDeps] at h
    cases h
    refine ⟨fun v => by simp [depNames], fun x => by simp [depNames], by simp⟩
  | cons d ds ih =>
    intro ind g ind2 g2 h
    simp only [addDeps] at h
    cases hg : getM d.Name c with
    | none => rw [hg] at h; cases h
    | some fd =>
      rw [hg] at h
      by_cases hF : fd.Final
      · simp [hF] at h
      · by_cases hD : fd.Disable
        · simp [hF, hD] at h
        · simp only [hF, hD, if_false, Bool.false_eq_true, ite_false] at h
          rcases ih h with ⟨h1, h2, h3⟩
          refine ⟨?_, ?_, ?_⟩
          · intro v
            have := h1 v
            by_cases hv : v = a <;> simp [hv] at this ⊢ <;> omega
          · intro x
            have hgx := h2 x
            simp only [] at hgx
            by_cases hx : x = d.Name
            · subst hx
              rw [hgx, if_pos rfl]
              simp [depNames, List.count_cons, List.replicate_succ, List.append_assoc]
            · rw [hgx, if_neg hx]
              have hcnt : (depNames (d :: ds)).count x = (depNames ds).count x := by
                simp [depNames, List.count_cons, Ne.symm hx]
              rw [hcnt]
          · intro e he
            rcases List.mem_cons.mp he with he | he
            · exact ⟨fd, he ▸ hg, by simpa using hF, by simpa using hD⟩
            · exact h3 e he

theorem addDeps_ok_of_clean {c : Container} {a : String} :
    ∀ {ds : List Dependency} {ind : String → Int} {g : String → List String},
      (∀ d ∈ ds, ∃ fd, getM d.Name c = some fd ∧ fd.Final = false ∧ fd.Disable = false) →
      ∃ r, addDeps c a ds ind g = .ok r := by
  intro ds
  induction ds with
  | nil => exact fun _ => ⟨_, rfl⟩
  | cons d ds ih =>
    intro ind g h
    rcases h d (List.mem_cons_self d ds) with ⟨fd, hfd, hF, hD⟩
    simp only [addDeps, hfd, hF, hD, Bool.false_eq_true, if_false]
    exact ih (fun e he => h e (List.mem_cons_of_mem d he))

theorem addDeps_flag_error {c : Container} {a : String} :
    ∀ {ds : List Dependency} {ind : String → Int} {g : String → List String},
      (∀ d ∈ ds, (getM d.Name c).isSome = true) →
      (∃ d ∈ ds, ∃ fd, getM d.Name c = some fd ∧ (fd.Final = true ∨ fd.Disable = true)) →
      ∃ d fd, d ∈ ds ∧ getM d.Name c = some fd ∧
        ((fd.Final = true ∧ addDeps c a ds ind g = .error (.finalDep d.Name a)) ∨
         (fd.Final = false ∧ fd.Disable = true ∧
           addDeps c a ds ind g = .error (.disableDep d.Name a))) := by
  intro ds
  induction ds with
  | nil => rintro ind g _ ⟨d, hd, _⟩; simp at hd
  | cons d ds ih =>
    intro ind g hres hbad
    rcases hsome : getM d.Name c with _ | fd
    · have := hres d (List.mem_cons_self d ds)
      rw [hsome] at this
      simp at this
    · by_cases hF : fd.Final
      · exact ⟨d, fd, List.mem_cons_self d ds, hsome,
          .inl ⟨hF, by simp [addDeps, hsome, hF]⟩⟩
      · by_cases hD : fd.Disable
        · refine ⟨d, fd, List.mem_cons_self d ds, hsome, .inr ⟨by simpa using hF, hD, ?_⟩⟩
          simp [addDeps, hsome, hF, hD]
        · have hbad2 : ∃ e ∈ ds, ∃ fe, getM e.Name c = some fe ∧
              (fe.Final = true ∨ fe.Disable = true) := by
            rcases hbad with ⟨e, he, fe, hfe, hflag⟩
            rcases List.mem_cons.mp he with he | he
            · subst he
              rw [hsome] at hfe
              cases hfe
              rcases hflag with h | h
              · exact absurd h (by simpa using hF)
              · exact absurd h (by simpa using hD)
            · exact ⟨e, he, fe, hfe, hflag⟩
          have hres2 : ∀ e ∈ ds, (getM e.Name c).isSome = true :=
            fun e he => hres e (List.mem_cons_of_mem d he)
          rcases ih hres2 hbad2 with ⟨e, fe, he, hfe, hcase⟩
          refine ⟨e, fe, List.mem_cons_of_mem d he, hfe, ?_⟩
          have hstep : addDeps c a (d :: ds) ind g =
              addDeps c a ds (fun x => if x = a then ind x + 1 else ind x)
                (fun x => if x = d.Name then g x ++ [a] else g x) := by
            simp [addDeps, hsome, hF, hD]
          rcases hcase with ⟨h1, h2⟩ | ⟨h1, h2, h3⟩
          · exact .inl ⟨h1, by rw [hstep]; exact h2⟩
          · exact .inr ⟨h1, h2, by rw [hstep]; exact h3⟩

theorem getM_cons {β : Type} {a v : String} {b : β} {l : List (String × β)} :
    getM v ((a, b) :: l) = if a = v then some b else getM v l := rfl

theorem entryDeps_cons {a v : String} {f : Factory} {l : List (String × Factory)} :
    entryDeps ((a, f) :: l) v = if a = v then f.Deps else entryDeps l v := by
  simp only [entryDeps, getM_cons]
  by_cases h : a = v <;> simp [h]

theorem entryDeps_nil_of_not_mem {v : String} {l : List (String × Factory)}
    (h : v ∉ l.map Prod.fst) : entryDeps l v = [] := by
  simp [entryDeps, getM_eq_none_of_not_mem h]

theorem buildGraphAux_ok {c : Container} :
    ∀ {l : List (String × Factory)} {ind : String → Int} {g : String → List String}
      {ind2 : String → Int} {g2 : String → List String},
      (l.map Prod.fst).Nodup →
      buildGraphAux c l ind g = .ok (ind2, g2) →
      (∀ v, ind2 v = ind v + ((entryDeps l v).length : Int)) ∧
      (∀ x y, (g2 x).count y = (g x).count y + (depNames (entryDeps l y)).count x) ∧
      (∀ x y, y ∈ g2 x → y ∈ g x ∨ y ∈ l.map Prod.fst) ∧
      (∀ p ∈ l, ∀ d ∈ p.2.Deps,
        ∃ fd, getM d.Name c = some fd ∧ fd.Final = false ∧ fd.Disable = false) := by
  intro l
  induction l with
  | nil =>
    intro ind g ind2 g2 _ h
    simp only [buildGraphAux] at h
    cases h
    exact ⟨fun v => by simp [entryDeps, getM], fun x y => by simp [entryDeps, getM, depNames],
      fun x y hy => .inl hy, by simp⟩
  | cons p rest ih =>
    rcases p with ⟨a, f⟩
    intro ind g ind2 g2 hnd h
    simp only [buildGraphAux] at h
    rcases hadd : addDeps c a f.Deps ind g with e | r
    · rw [hadd] at h; cases h
    · rw [hadd] at h
      rcases r with ⟨ind1, g1⟩
      simp only [List.map_cons, List.nodup_cons] at hnd
      rcases addDeps_ok hadd with ⟨ha1, ha2, ha3⟩
      rcases ih hnd.2 h with ⟨hi1, hi2, hi3, hi4⟩
      simp only [] at hi1 hi2 hi3
      have hrest_a : entryDeps rest a = [] := entryDeps_nil_of_not_mem hnd.1
      refine ⟨?_, ?_, ?_, ?_⟩
      · intro v
        rw [hi1 v, ha1 v, entryDeps_cons]
        by_cases hv : a = v
        · subst hv
          simp [hrest_a]
        · have : v ≠ a := fun he => hv he.symm
          simp [hv, this]
      · intro x y
        rw [hi2 x y, ha2 x, List.count_append, entryDeps_cons]
        by_cases hy : a = y
        · subst hy
          simp [hrest_a, List.count_replicate, depNames]
        · have hyne : y ≠ a := fun he => hy he.symm
          simp [List.count_replicate, hy, hyne]
      · intro x y hy
        rcases hi3 x y hy with hy1 | hy1
        · rw [ha2 x] at hy1
          rcases List.mem_append.mp hy1 with hy2 | hy2
          · exact .inl hy2
          · have := List.eq_of_mem_replicate hy2
            subst this
            exact .inr (by simp)
        · exact .inr (by simp [hy1])
      · intro q hq d hd
        rcases List.mem_cons.mp hq with hq | hq
        · subst hq
          exact ha3 d hd
        · exact hi4 q hq d hd

theorem depNames_entryDeps {c : Container} {v : String} :
    depNames (entryDeps c v) = depsOf c v := by
  simp only [depNames, entryDeps, depsOf]
  cases getM v c <;> simp

/-- What a successful phase one computes: the indegree of `v` is the number
of dependency occurrences of `v`'s factory, the adjacency list `g x`
contains each dependent `y` once per occurrence of `x` in `y`'s dependency
list, every adjacency target is a key, and every dependency resolves to an
unflagged factory. -/
theorem buildGraph_ok_facts {c : Container} {ind : String → Int}
    {g : String → List String} (hnd : (keysOf c).Nodup)
    (h : buildGraph c = .ok (ind, g)) :
    (∀ v, ind v = ((depsOf c v).length : Int)) ∧
    (∀ x y, (g x).count y = (depsOf c y).count x) ∧
    (∀ x y, y ∈ g x → y ∈ keysOf c) ∧
    (∀ p ∈ c, ∀ d ∈ p.2.Deps,
      ∃ fd, getM d.Name c = some fd ∧ fd.Final = false ∧ fd.Disable = false) := by
  rcases buildGraphAux_ok hnd h with ⟨h1, h2, h3, h4⟩
  refine ⟨?_, ?_, ?_, h4⟩
  · intro v
    have := h1 v
    rw [depsOf]
    rcases hg : getM v c with _ | f <;> rw [entryDeps, hg] at this <;> simpa [hg] using this
  · intro x y
    have := h2 x y
    rwa [depNames_entryDeps, List.count_nil, Nat.zero_add] at this
  · intro x y hy
    rcases h3 x y hy with h | h
    · simp at h
    · exact h

/-- A dependency whose name resolves to a Final- or Disable-flagged
factory. -/
def flaggedDepB (c : Container) (d : Dependency) : Bool :=
  match getM d.Name c with
  | some fd => fd.Final || fd.Disable
  | none => false

theorem buildGraphAux_ok_of_clean {c : Container} :
    ∀ {l : List (String × Factory)} {ind : String → Int} {g : String → List String},
      (∀ p ∈ l, ∀ d ∈ p.2.Deps,
        ∃ fd, getM d.Name c = some fd ∧ fd.Final = false ∧ fd.Disable = false) →
      ∃ r, buildGraphAux c l ind g = .ok r := by
  intro l
  induction l with
  | nil => exact fun _ => ⟨_, rfl⟩
  | cons p rest ih =>
    rcases p with ⟨a, f⟩
    intro ind g hcl
    rcases @addDeps_ok_of_clean c a _ ind g
        (hcl (a, f) (List.mem_cons_self _ _)) with ⟨r, hr⟩
    simp only [buildGraphAux, hr]
    exact ih (fun q hq => hcl q (List.mem_cons_of_mem _ hq))

theorem buildGraphAux_flag_error {c : Container} :
    ∀ {l : List (String × Factory)} {ind : String → Int} {g : String → List String},
      (∀ p ∈ l, ∀ d ∈ p.2.Deps, (getM d.Name c).isSome = true) →
      (∃ p ∈ l, ∃ d ∈ p.2.Deps, flaggedDepB c d = true) →
      ∃ a f d fd, (a, f) ∈ l ∧ d ∈ f.Deps ∧ getM d.Name c = some fd ∧
        ((fd.Final = true ∧ buildGraphAux c l ind g = .error (.finalDep d.Name a)) ∨
         (fd.Final = false ∧ fd.Disable = true ∧
           buildGraphAux c l ind g = .error (.disableDep d.Name a))) := by
  intro l
  induction l with
  | nil => rintro ind g _ ⟨p, hp, _⟩; simp at hp
  | cons p rest ih =>
    rcases p with ⟨a, f⟩
    intro ind g hres hbad
    by_cases hh : ∃ d ∈ f.Deps, flaggedDepB c d = true
    · rcases hh with ⟨d0, hd0, hflag⟩
      have hres1 : ∀ d ∈ f.Deps, (getM d.Name c).isSome = true :=
        hres (a, f) (List.mem_cons_self _ _)
      have hbad1 : ∃ d ∈ f.Deps, ∃ fd, getM d.Name c = some fd ∧
          (fd.Final = true ∨ fd.Disable = true) := by
        refine ⟨d0, hd0, ?_⟩
        rcases hg : getM d0.Name c with _ | fd
        · rw [flaggedDepB, hg] at hflag; cases hflag
        · rw [flaggedDepB, hg] at hflag
          exact ⟨fd, rfl, by simpa using hflag⟩
      rcases @addDeps_flag_error c a _ ind g hres1 hbad1 with
        ⟨d, fd, hd, hfd, hcase⟩
      refine ⟨a, f, d, fd, List.mem_cons_self _ _, hd, hfd, ?_⟩
      rcases hcase with ⟨h1, h2⟩ | ⟨h1, h2, h3⟩
      · exact .inl ⟨h1, by simp [buildGraphAux, h2]⟩
      · exact .inr ⟨h1, h2, by simp [buildGraphAux, h3]⟩
    · have hclean : ∀ d ∈ f.Deps,
          ∃ fd, getM d.Name c = some fd ∧ fd.Final = false ∧ fd.Disable = false := by
        intro d hd
        have hs := hres (a, f) (List.mem_cons_self _ _) d hd
        rcases hg : getM d.Name c with _ | fd
        · rw [hg] at hs; cases hs
        · refine ⟨fd, rfl, ?_⟩
          have : flaggedDepB c d = false := by
            rcases hfb : flaggedDepB c d with _ | _
            · rfl
            · exact absurd ⟨d, hd, hfb⟩ hh
          rw [flaggedDepB, hg] at this
          simpa using this
      rcases @addDeps_ok_of_clean c a _ ind g hclean with ⟨r, hr⟩
      have hbad2 : ∃ p ∈ rest, ∃ d ∈ p.2.Deps, flaggedDepB c d = true := by
        rcases hbad with ⟨q, hq, d, hd, hflag⟩
        rcases List.mem_cons.mp hq with hq | hq
        · subst hq
          exact absurd ⟨d, hd, hflag⟩ hh
        · exact ⟨q, hq, d, hd, hflag⟩
      have hres2 : ∀ p ∈ rest, ∀ d ∈ p.2.Deps, (getM d.Name c).isSome = true :=
        fun q hq => hres q (List.mem_cons_of_mem _ hq)
      rcases ih hres2 hbad2 with ⟨a2, f2, d2, fd2, hmem, hd2, hfd2, hcase⟩
      refine ⟨a2, f2, d2, fd2, List.mem_cons_of_mem _ hmem, hd2, hfd2, ?_⟩
      have hstep : ∀ e, buildGraphAux c rest r.1 r.2 = e →
          buildGraphAux c ((a, f) :: rest) ind g = e := by
        intro e he
        simp [buildGraphAux, hr, he]
      rcases hcase with ⟨h1, h2⟩ | ⟨h1, h2, h3⟩
      · exact .inl ⟨h1, hstep _ h2⟩
      · exact .inr ⟨h1, h2, hstep _ h3⟩

/-! ### Lemmas about one round of queue decrements -/

theorem decAll_cons_one (ind : String → Int) (n : String) (ns : List String) :
    (decAll ind (n :: ns)).1 =
      (decAll (fun x => if x = n then ind x - 1 else ind x) ns).1 := by
  simp only [decAll]
  by_cases h : ind n - 1 = 0 <;> simp [h]

theorem decAll_cons_two (ind : String → Int) (n : String) (ns : List String) :
    (decAll ind (n :: ns)).2 =
      if ind n - 1 = 0 then
        n :: (decAll (fun x => if x = n then ind x - 1 else ind x) ns).2
      else (decAll (fun x => if x = n then ind x - 1 else ind x) ns).2 := by
  simp only [decAll]
  by_cases h : ind n - 1 = 0 <;> simp [h]

theorem decAll_fn :
    ∀ (l : List String) (ind : String → Int) (x : String),
      (decAll ind l).1 x = ind x - (l.count x : Int) := by
  intro l
  induction l with
  | nil => intro ind x; simp [decAll]
  | cons n ns ih =>
    intro ind x
    rw [decAll_cons_one, ih]
    by_cases hx : x = n
    · subst hx
      simp [List.count_cons]
      omega
    · simp [List.count_cons, hx]

theorem decAll_pushed_iff :
    ∀ (l : List String) (ind : String → Int) (x : String),
      x ∈ (decAll ind l).2 ↔ (1 ≤ ind x ∧ ind x ≤ (l.count x : Int)) := by
  intro l
  induction l with
  | nil =>
    intro ind x
    simp [decAll]
    omega
  | cons n ns ih =>
    intro ind x
    rw [decAll_cons_two]
    by_cases hx : x = n
    · subst hx
      by_cases hz : ind x - 1 = 0
      · simp only [hz, ite_true, List.mem_cons, true_or, true_iff]
        simp [List.count_cons]
        omega
      · simp only [hz, ite_false, ih, if_pos rfl]
        simp [List.count_cons]
        omega
    · have hxne : ¬ (x = n) := hx
      by_cases hz : ind n - 1 = 0 <;>
        simp [hz, ih, hxne, List.count_cons, Ne.symm hxne]

theorem decAll_pushed_nodup :
    ∀ (l : List String) (ind : String → Int), (decAll ind l).2.Nodup := by
  intro l
  induction l with
  | nil => intro ind; simp [decAll]
  | cons n ns ih =>
    intro ind
    rw [decAll_cons_two]
    by_cases hz : ind n - 1 = 0
    · simp only [hz, ite_true, List.nodup_cons]
      refine ⟨?_, ih _⟩
      rw [decAll_pushed_iff]
      rintro ⟨h1, h2⟩
      simp at h1
      omega
    · simp only [hz, ite_false]
      exact ih _

/-! ### Pending-dependency counting -/

/-- Boolean "not yet emitted" predicate (kept opaque to `simp` so the
filter arguments stay syntactically stable). -/
def notMemB (em : List String) (d : String) : Bool := decide (d ∉ em)

theorem notMemB_true {em : List String} {d : String} :
    notMemB em d = true ↔ d ∉ em := by simp [notMemB]

theorem notMemB_false {em : List String} {d : String} :
    notMemB em d = false ↔ d ∈ em := by simp [notMemB]

/-- The dependency occurrences of `v` not yet emitted; the running
`indegree[v]` always equals its length. -/
def pendDeps (c : Container) (em : List String) (v : String) : List String :=
  (depsOf c v).filter (notMemB em)

theorem pendDeps_nil (c : Container) (v : String) :
    pendDeps c [] v = depsOf c v := by
  rw [pendDeps, List.filter_eq_self]
  intro d _
  simp [notMemB]

theorem length_filter_ne (node : String) :
    ∀ l : List String,
      (l.filter (fun d => decide (d ≠ node))).length + l.count node = l.length := by
  intro l
  induction l with
  | nil => simp
  | cons d ds ih =>
    rw [List.filter_cons, List.count_cons]
    by_cases hd : d = node
    · have hcond : (decide (d ≠ node)) = false := by simp [hd]
      have hbeq1 : (d == node) = true := by simp [hd]
      have hbeq2 : (node == d) = true := by simp [hd]
      simp only [hcond, hbeq1, hbeq2, Bool.false_eq_true, if_false, if_true, ite_true,
        List.length_cons]
      omega
    · have hcond : (decide (d ≠ node)) = true := by simp [hd]
      have hbeq1 : (d == node) = false := by simp [hd]
      have hbeq2 : (node == d) = false := by simp [Ne.symm hd]
      simp only [hcond, hbeq1, hbeq2, Bool.false_eq_true, if_false, if_true, ite_true,
        List.length_cons]
      omega

theorem count_filter_notMemB (em : List String) (node : String) (h : node ∉ em) :
    ∀ l : List String, (l.filter (notMemB em)).count node = l.count node := by
  intro l
  induction l with
  | nil => simp
  | cons d ds ih =>
    rw [List.filter_cons, List.count_cons]
    by_cases hd : d = node
    · subst hd
      rw [notMemB_true.mpr h]
      simp only [if_true, List.count_cons, beq_self_eq_true, ite_true]
      omega
    · have hbeq1 : (d == node) = false := by simp [hd]
      have hbeq2 : (node == d) = false := by simp [Ne.symm hd]
      rcases hnb : notMemB em d with _ | _
      · simp [hbeq1, hbeq2, ih, hd]
      · simp [hbeq1, hbeq2, ih, hd, List.count_cons]

theorem filter_snoc_decomp (em : List String) (node : String) :
    ∀ l : List String,
      l.filter (notMemB (em ++ [node])) =
        (l.filter (notMemB em)).filter (fun d => decide (d ≠ node)) := by
  intro l
  rw [List.filter_filter]
  apply List.filter_congr
  intro d _
  rcases h1 : notMemB em d with _ | _
  · rw [notMemB_false] at h1
    rw [notMemB_false.mpr (by simp [h1])]
    simp
  · rw [notMemB_true] at h1
    by_cases h2 : d = node
    · rw [notMemB_false.mpr (by simp [h2])]
      simp [h2]
    · rw [notMemB_true.mpr (by simp [h1, h2])]
      simp [h2]

theorem filterNot_snoc (em : List String) (node : String) (h : node ∉ em)
    (l : List String) :
    ((l.filter (notMemB (em ++ [node]))).length : Int) =
      ((l.filter (notMemB em)).length : Int) - (l.count node : Int) := by
  rw [filter_snoc_decomp]
  have h1 := length_filter_ne node (l.filter (notMemB em))
  have h2 := count_filter_notMemB em node h l
  omega

theorem filterNot_zero_iff (em : List String) (l : List String) :
    (l.filter (notMemB em)).length = 0 ↔ ∀ d ∈ l, d ∈ em := by
  rw [List.length_eq_zero, List.filter_eq_nil_iff]
  constructor
  · intro h d hd
    have := h d hd
    rwa [Bool.not_eq_true, notMemB_false] at this
  · intro h d hd
    rw [Bool.not_eq_true, notMemB_false]
    exact h d hd

theorem filterNot_eq_count (em : List String) (node : String) (h : node ∉ em) :
    ∀ l : List String, (∀ d ∈ l, d ∈ em ∨ d = node) →
      (l.filter (notMemB em)).length = l.count node := by
  intro l
  induction l with
  | nil => simp
  | cons d ds ih =>
    intro hsub
    have htail := ih (fun e he => hsub e (List.mem_cons_of_mem _ he))
    rw [List.filter_cons, List.count_cons]
    rcases hsub d (List.mem_cons_self _ _) with hd | hd
    · have hne : d ≠ node := fun he => h (he ▸ hd)
      have hbeq1 : (d == node) = false := by simp [hne]
      have hbeq2 : (node == d) = false := by simp [Ne.symm hne]
      rw [notMemB_false.mpr hd]
      simp [hbeq1, hbeq2, htail, hne]
    · subst hd
      rw [notMemB_true.mpr h]
      simp [htail]

/-! ### The drain-loop master lemma -/

theorem depsOf_ne_nil_mem_keys {c : Container} {x : String}
    (h : depsOf c x ≠ []) : x ∈ keysOf c := by
  rw [depsOf] at h
  rcases hg : getM x c with _ | f
  · rw [hg] at h; simp at h
  · exact getM_mem_keys hg

theorem nodup_subset_length {l₁ l₂ : List String} (hnd : l₁.Nodup)
    (hsub : ∀ x ∈ l₁, x ∈ l₂) : l₁.length ≤ l₂.length :=
  (hnd.subperm hsub).length_le

/-- Invariant preservation and the terminal facts for the Kahn drain loop.
Starting from any state satisfying the invariants (the seeded initial state
does), the result extends `em`, stays a duplicate-free list of keys, every
emitted node's dependencies are emitted strictly before it, and — because
the fuel accounting shows the queue is exhausted before the fuel is — every
key whose dependencies are all emitted is emitted. -/
theorem drain_master {c : Container} {g : String → List String}
    (hGcount : ∀ x y, (g x).count y = (depsOf c y).count x) :
    ∀ (fuel : Nat) (q : List String) (ind : String → Int) (em : List String),
      (em ++ q).Nodup →
      (∀ x, x ∈ em ++ q → x ∈ keysOf c) →
      (∀ v, ind v = ((pendDeps c em v).length : Int)) →
      (∀ v, v ∈ keysOf c → (∀ d ∈ depsOf c v, d ∈ em) → v ∈ em ∨ v ∈ q) →
      (∀ a, a ∈ em → ∀ d ∈ depsOf c a, List.Sublist [d, a] em) →
      (∀ v, v ∈ q → ∀ d ∈ depsOf c v, d ∈ em) →
      ((keysOf c).length + 1 ≤ em.length + fuel) →
      List.IsPrefix em (drain g fuel q ind em) ∧
      (drain g fuel q ind em).Nodup ∧
      (∀ x, x ∈ drain g fuel q ind em → x ∈ keysOf c) ∧
      (∀ a, a ∈ drain g fuel q ind em → ∀ d ∈ depsOf c a,
        List.Sublist [d, a] (drain g fuel q ind em)) ∧
      (∀ v, v ∈ keysOf c → (∀ d ∈ depsOf c v, d ∈ drain g fuel q ind em) →
        v ∈ drain g fuel q ind em) := by
  intro fuel
  induction fuel with
  | zero =>
    intro q ind em hA hAk _ _ _ _ hfuel
    exfalso
    have hemnd : em.Nodup := (List.nodup_append.mp hA).1
    have hemsub : ∀ x ∈ em, x ∈ keysOf c :=
      fun x hx => hAk x (List.mem_append_left _ hx)
    have := nodup_subset_length hemnd hemsub
    omega
  | succ fuel ih =>
    intro q ind em hA hAk hB hC hD hE hfuel
    match q with
    | [] =>
      simp only [drain]
      refine ⟨List.prefix_rfl, by simpa using hA, fun x hx => hAk x (by simpa using hx),
        hD, ?_⟩
      intro v hv hdeps
      rcases hC v hv hdeps with h | h
      · exact h
      · simp at h
    | node :: rest =>
      have hstep : drain g (fuel + 1) (node :: rest) ind em =
          drain g fuel (rest ++ (decAll ind (g node)).2) (decAll ind (g node)).1
            (em ++ [node]) := rfl
      rw [hstep]
      set pushed := (decAll ind (g node)).2 with hpushdef
      -- basic separation facts from the state invariant
      have hA' : (em ++ [node] ++ rest).Nodup := by
        rwa [List.append_assoc, List.singleton_append]
      have hsplit := List.nodup_append.mp hA
      have hnodeem : node ∉ em := by
        intro hmem
        exact hsplit.2.2 hmem (List.mem_cons_self _ _)
      have hnoderest : node ∉ rest := by
        have := hsplit.2.1
        simp only [List.nodup_cons] at this
        exact this.1
      have hkeynode : node ∈ keysOf c :=
        hAk node (List.mem_append_right _ (List.mem_cons_self _ _))
      -- the decremented indegree satisfies the counting invariant for em ++ [node]
      have hB' : ∀ v, (decAll ind (g node)).1 v =
          ((pendDeps c (em ++ [node]) v).length : Int) := by
        intro v
        rw [decAll_fn, hGcount, hB v, pendDeps, pendDeps,
          filterNot_snoc em node hnodeem]
      -- membership in the pushed list
      have hpush_iff : ∀ x, x ∈ pushed ↔
          (1 ≤ ind x ∧ ind x ≤ ((depsOf c x).count node : Int)) := by
        intro x
        rw [hpushdef, decAll_pushed_iff, hGcount]
      have hpush_keys : ∀ x, x ∈ pushed → x ∈ keysOf c := by
        intro x hx
        rcases (hpush_iff x).mp hx with ⟨h1, _⟩
        rw [hB x] at h1
        apply depsOf_ne_nil_mem_keys
        intro hnil
        rw [pendDeps, hnil] at h1
        simp at h1
      have hpush_not_em : ∀ x, x ∈ pushed → x ∉ em := by
        intro x hx hmem
        rcases (hpush_iff x).mp hx with ⟨h1, _⟩
        have hall : ∀ d ∈ depsOf c x, d ∈ em := by
          intro d hd
          exact (List.singleton_sublist.mp
            (List.Sublist.trans (by simp) (hD x hmem d hd)))
        have := (filterNot_zero_iff em (depsOf c x)).mpr hall
        rw [hB x] at h1
        rw [pendDeps] at h1
        omega
      have hpush_not_q : ∀ x, x ∈ pushed → x ∉ node :: rest := by
        intro x hx hmem
        rcases (hpush_iff x).mp hx with ⟨h1, _⟩
        have hall : ∀ d ∈ depsOf c x, d ∈ em := hE x hmem
        have := (filterNot_zero_iff em (depsOf c x)).mpr hall
        rw [hB x, pendDeps] at h1
        omega
      -- the new state satisfies all invariants
      have hAnew : ((em ++ [node]) ++ (rest ++ pushed)).Nodup := by
        have hXnd : (em ++ [node] ++ rest).Nodup := hA'
        have hpnd : pushed.Nodup := hpushdef ▸ decAll_pushed_nodup _ _
        have hdisj : (em ++ [node] ++ rest).Disjoint pushed := by
          intro x hx hxp
          rcases List.mem_append.mp hx with hx | hx
          · rcases List.mem_append.mp hx with hx | hx
            · exact hpush_not_em x hxp hx
            · have hxnode : x = node := by simpa using hx
              exact hpush_not_q x hxp (hxnode ▸ List.mem_cons_self _ _)
          · exact hpush_not_q x hxp (List.mem_cons_of_mem _ hx)
        have : ((em ++ [node] ++ rest) ++ pushed).Nodup :=
          List.nodup_append.mpr ⟨hXnd, hpnd, hdisj⟩
        simpa [List.append_assoc] using this
      have hAknew : ∀ x, x ∈ (em ++ [node]) ++ (rest ++ pushed) → x ∈ keysOf c := by
        intro x hx
        rcases List.mem_append.mp hx with hx | hx
        · rcases List.mem_append.mp hx with hx | hx
          · exact hAk x (List.mem_append_left _ hx)
          · simp at hx
            exact hx ▸ hkeynode
        · rcases List.mem_append.mp hx with hx | hx
          · exact hAk x (List.mem_append_right _ (List.mem_cons_of_mem _ hx))
          · exact hpush_keys x hx
      have hCnew : ∀ v, v ∈ keysOf c →
          (∀ d ∈ depsOf c v, d ∈ em ++ [node]) →
          v ∈ em ++ [node] ∨ v ∈ rest ++ pushed := by
        intro v hv hdeps
        by_cases hvem : v ∈ em
        · exact .inl (List.mem_append_left _ hvem)
        · by_cases hvnode : v = node
          · exact .inl (List.mem_append_right _ (by simp [hvnode]))
          · by_cases hvrest : v ∈ rest
            · exact .inr (List.mem_append_left _ hvrest)
            · by_cases hallem : ∀ d ∈ depsOf c v, d ∈ em
              · rcases hC v hv hallem with h | h
                · exact .inl (List.mem_append_left _ h)
                · rcases List.mem_cons.mp h with h | h
                  · exact absurd h hvnode
                  · exact .inr (List.mem_append_left _ h)
              · push_neg at hallem
                rcases hallem with ⟨d0, hd0, hd0em⟩
                have hd0node : d0 = node := by
                  have := hdeps d0 hd0
                  rcases List.mem_append.mp this with h | h
                  · exact absurd h hd0em
                  · simpa using h
                have hsub : ∀ d ∈ depsOf c v, d ∈ em ∨ d = node := by
                  intro d hd
                  rcases List.mem_append.mp (hdeps d hd) with h | h
                  · exact .inl h
                  · exact .inr (by simpa using h)
                have hcnt : (pendDeps c em v).length = (depsOf c v).count node := by
                  rw [pendDeps]
                  exact filterNot_eq_count em node hnodeem _ hsub
                refine .inr (List.mem_append_right _ ((hpush_iff v).mpr ⟨?_, ?_⟩))
                · rw [hB v, hcnt]
                  have : node ∈ depsOf c v := hd0node ▸ hd0
                  have := List.count_pos_iff.mpr this
                  omega
                · rw [hB v, hcnt]
      have hDnew : ∀ a, a ∈ em ++ [node] → ∀ d ∈ depsOf c a,
          List.Sublist [d, a] (em ++ [node]) := by
        intro a ha d hd
        rcases List.mem_append.mp ha with ha | ha
        · exact List.Sublist.trans (hD a ha d hd) (List.sublist_append_left _ _)
        · simp at ha
          subst ha
          have hdem : d ∈ em := hE a (List.mem_cons_self _ _) d hd
          have h1 : List.Sublist [d] em := List.singleton_sublist.mpr hdem
          have h2 : List.Sublist [a] [a] := List.Sublist.refl _
          exact h1.append h2
      have hEnew : ∀ v, v ∈ rest ++ pushed → ∀ d ∈ depsOf c v, d ∈ em ++ [node] := by
        intro v hv d hd
        rcases List.mem_append.mp hv with hv | hv
        · exact List.mem_append_left _ (hE v (List.mem_cons_of_mem _ hv) d hd)
        · rcases (hpush_iff v).mp hv with ⟨_, h2⟩
          have hzero : ((pendDeps c (em ++ [node]) v).length : Int) ≤ 0 := by
            rw [← hB' v, decAll_fn, hGcount]
            rw [hB v] at h2 ⊢
            omega
          have hz2 : (pendDeps c (em ++ [node]) v).length = 0 := by omega
          rw [pendDeps] at hz2
          exact (filterNot_zero_iff _ _).mp hz2 d hd
      have hfuelnew : (keysOf c).length + 1 ≤ (em ++ [node]).length + fuel := by
        simp only [List.length_append, List.length_cons, List.length_nil]
        omega
      rcases ih (rest ++ pushed) (decAll ind (g node)).1 (em ++ [node])
          hAnew hAknew hB' hCnew hDnew hEnew hfuelnew with ⟨h1, h2, h3, h4, h5⟩
      refine ⟨?_, h2, h3, h4, h5⟩
      exact List.IsPrefix.trans (List.prefix_append em [node]) h1

/-! ### Positions in an emitted order -/

/-- `x` occupies a strictly earlier position than `y` in `l`. -/
def PairBefore (l : List String) (x y : String) : Prop :=
  ∃ i j : Fin l.length, i.1 < j.1 ∧ l.get i = x ∧ l.get j = y

theorem pair_sublist_before :
    ∀ {l : List String} {x y : String}, List.Sublist [x, y] l → PairBefore l x y := by
  intro l
  induction l with
  | nil => intro x y h; cases h
  | cons z l' ih =>
    intro x y h
    cases h with
    | cons _ h' =>
      rcases ih h' with ⟨i, j, hij, hx, hy⟩
      exact ⟨i.succ, j.succ, by simpa using hij, by simpa using hx, by simpa using hy⟩
    | cons₂ _ h' =>
      have hy : y ∈ l' := (List.singleton_sublist).mp h'
      rcases List.mem_iff_get.mp hy with ⟨k, hk⟩
      exact ⟨⟨0, by simp⟩, k.succ, by simp, rfl, by simpa using hk⟩

theorem pairBefore_mem_left {l : List String} {x y : String}
    (h : PairBefore l x y) : x ∈ l := by
  rcases h with ⟨i, _, _, hx, _⟩
  exact hx ▸ l.get_mem i.1 i.2

theorem pairBefore_mem_right {l : List String} {x y : String}
    (h : PairBefore l x y) : y ∈ l := by
  rcases h with ⟨_, j, _, _, hy⟩
  exact hy ▸ l.get_mem j.1 j.2

theorem pairBefore_trans {l : List String} (hnd : l.Nodup) {x y z : String}
    (h1 : PairBefore l x y) (h2 : PairBefore l y z) : PairBefore l x z := by
  rcases h1 with ⟨i, j, hij, hx, hy⟩
  rcases h2 with ⟨k, m, hkm, hy', hz⟩
  have hjk : j = k := by
    apply (List.Nodup.get_inj_iff hnd).mp
    rw [hy, hy']
  subst hjk
  exact ⟨i, m, lt_trans hij hkm, hx, hz⟩

theorem pairBefore_irrefl {l : List String} (hnd : l.Nodup) {v : String} :
    ¬ PairBefore l v v := by
  rintro ⟨i, j, hij, hx, hy⟩
  have : i = j := (List.Nodup.get_inj_iff hnd).mp (hx.trans hy.symm)
  omega

theorem depsOf_eq {c : Container} {a : String} {f : Factory}
    (hf : getM a c = some f) : depsOf c a = f.Deps.map Dependency.Name := by
  simp [depsOf, hf]

theorem edge_iff_depsOf {c : Container} {d v : String} :
    Edge c d v ↔ (v ∈ keysOf c ∧ d ∈ depsOf c v) := by
  constructor
  · rintro ⟨f, hf, hd⟩
    exact ⟨getM_mem_keys hf, by rw [depsOf_eq hf]; exact hd⟩
  · rintro ⟨hv, hd⟩
    rcases Option.isSome_iff_exists.mp (getM_isSome_of_mem_keys hv) with ⟨f, hf⟩
    exact ⟨f, hf, by rwa [depsOf_eq hf] at hd⟩

/-- Along an emitted order whose every element's dependencies are emitted
strictly before it, any dependency path into an emitted node starts at a
strictly earlier emitted node. -/
theorem path_emitted_before {c : Container} {E : List String} (hnd : E.Nodup)
    (hsound : ∀ a ∈ E, ∀ d ∈ depsOf c a, List.Sublist [d, a] E) :
    ∀ {d a : String}, DepPath c d a → a ∈ E → PairBefore E d a := by
  intro d a hpath
  induction hpath with
  | single he =>
    intro ha
    exact pair_sublist_before (hsound _ ha _ (edge_iff_depsOf.mp he).2)
  | cons he _ ih =>
    intro ha
    have hma := ih ha
    have hm : _ ∈ E := pairBefore_mem_left hma
    have hdm : PairBefore E _ _ :=
      pair_sublist_before (hsound _ hm _ (edge_iff_depsOf.mp he).2)
    exact pairBefore_trans hnd hdm hma

/-- A node on a dependency cycle is never emitted by a sound order. -/
theorem cycle_node_not_emitted {c : Container} {E : List String} (hnd : E.Nodup)
    (hsound : ∀ a ∈ E, ∀ d ∈ depsOf c a, List.Sublist [d, a] E)
    {v : String} (hv : DepPath c v v) : v ∉ E := by
  intro hmem
  exact pairBefore_irrefl hnd (path_emitted_before hnd hsound hv hmem)

/-- If a nonempty set of keys is closed under "has an unfinished dependency
in the set", the graph has a cycle (infinite descent in a finite key set). -/
theorem cycle_of_stuck {c : Container} (P : String → Prop)
    (hne : ∃ v, v ∈ keysOf c ∧ P v)
    (hstep : ∀ v, v ∈ keysOf c → P v → ∃ d, (d ∈ keysOf c ∧ P d) ∧ Edge c d v) :
    HasCycle c := by
  classical
  rcases hne with ⟨v0, hv0⟩
  let S := {v : String // v ∈ keysOf c ∧ P v}
  let step : S → S := fun v =>
    ⟨(hstep v.1 v.2.1 v.2.2).choose, (hstep v.1 v.2.1 v.2.2).choose_spec.1⟩
  have hedge : ∀ v : S, Edge c (step v).1 v.1 :=
    fun v => (hstep v.1 v.2.1 v.2.2).choose_spec.2
  let f : Nat → S := fun n => step^[n] ⟨v0, hv0⟩
  have hfsucc : ∀ n, f (n + 1) = step (f n) := by
    intro n
    simp only [f, Function.iterate_succ_apply']
  have hedge' : ∀ n, Edge c (f (n + 1)).1 (f n).1 := by
    intro n
    rw [hfsucc]
    exact hedge (f n)
  -- pigeonhole: infinitely many iterates land in the finite key set
  have hfin : Finite {x : String // x ∈ keysOf c} := by
    have hset : {x : String | x ∈ keysOf c}.Finite := (keysOf c).finite_toSet
    exact hset.to_subtype
  let gix : Nat → {x : String // x ∈ keysOf c} := fun n => ⟨(f n).1, (f n).2.1⟩
  rcases Finite.exists_ne_map_eq_of_infinite gix with ⟨i, j, hne2, hij⟩
  have hval0 : (gix i).1 = (gix j).1 := Subtype.ext_iff.mp hij
  have hval : (f i).1 = (f j).1 := hval0
  have hpath : ∀ (k : Nat) (i : Nat), 0 < k → DepPath c (f (i + k)).1 (f i).1 := by
    intro k
    induction k with
    | zero => intro i h; omega
    | succ k ihk =>
      intro i _
      rcases Nat.eq_zero_or_pos k with hk | hk
      · subst hk
        exact .single (hedge' i)
      · exact .cons (hedge' (i + k)) (ihk i hk)
  rcases Ne.lt_or_lt hne2 with hlt2 | hlt2
  · have hp := hpath (j - i) i (by omega)
    rw [show i + (j - i) = j by omega] at hp
    rw [← hval] at hp
    exact ⟨(f i).1, hp⟩
  · have hp := hpath (i - j) j (by omega)
    rw [show j + (i - j) = i by omega] at hp
    rw [hval] at hp
    exact ⟨(f j).1, hp⟩

/-! ### Facts about `kahnRun` and `BuildOrder` -/

theorem closed_dep_key {c : Container} (hcl : ClosedB c = true) {v d : String}
    (hv : v ∈ keysOf c) (hd : d ∈ depsOf c v) : d ∈ keysOf c := by
  rcases Option.isSome_iff_exists.mp (getM_isSome_of_mem_keys hv) with ⟨f, hf⟩
  rw [depsOf_eq hf] at hd
  rcases List.mem_map.mp hd with ⟨dep, hdep, hname⟩
  have := closedB_iff.mp hcl (v, f) (getM_some_mem hf) dep hdep
  rcases Option.isSome_iff_exists.mp this with ⟨fd, hfd⟩
  exact getM_mem_keys (hname ▸ hfd)

theorem kahnRun_ok_facts {c : Container} {E : List String}
    (hnd : (keysOf c).Nodup) (h : kahnRun c = .ok E) :
    E.Nodup ∧ (∀ x, x ∈ E → x ∈ keysOf c) ∧
    (∀ a, a ∈ E → ∀ d ∈ depsOf c a, List.Sublist [d, a] E) ∧
    (∀ v, v ∈ keysOf c → (∀ d ∈ depsOf c v, d ∈ E) → v ∈ E) := by
  rw [kahnRun] at h
  rcases hbg : buildGraph c with e | r
  · rw [hbg] at h; cases h
  · rw [hbg] at h
    rcases r with ⟨ind, g⟩
    rcases buildGraph_ok_facts hnd hbg with ⟨F1, F2, _, _⟩
    cases h
    have hmaster := drain_master F2 (c.length + 1)
      ((keysOf c).filter fun n => ind n == 0) ind []
    have hA : (([] : List String) ++ (keysOf c).filter (fun n => ind n == 0)).Nodup := by
      simpa using hnd.filter _
    have hAk : ∀ x, x ∈ ([] : List String) ++ (keysOf c).filter (fun n => ind n == 0) →
        x ∈ keysOf c := by
      intro x hx
      simp only [List.nil_append] at hx
      exact (List.mem_filter.mp hx).1
    have hB : ∀ v, ind v = ((pendDeps c [] v).length : Int) := by
      intro v
      rw [pendDeps_nil]
      exact F1 v
    have hC : ∀ v, v ∈ keysOf c → (∀ d ∈ depsOf c v, d ∈ ([] : List String)) →
        v ∈ ([] : List String) ∨ v ∈ (keysOf c).filter (fun n => ind n == 0) := by
      intro v hv hdeps
      right
      have hnil : depsOf c v = [] := by
        rcases hdep : depsOf c v with _ | ⟨d, ds⟩
        · rfl
        · exact absurd (hdeps d (by rw [hdep]; exact List.mem_cons_self _ _)) (by simp)
      refine List.mem_filter.mpr ⟨hv, ?_⟩
      have := F1 v
      rw [hnil] at this
      simp at this
      simp [this]
    have hD : ∀ a, a ∈ ([] : List String) → ∀ d ∈ depsOf c a,
        List.Sublist [d, a] ([] : List String) := by
      intro a ha
      simp at ha
    have hE : ∀ v, v ∈ (keysOf c).filter (fun n => ind n == 0) →
        ∀ d ∈ depsOf c v, d ∈ ([] : List String) := by
      intro v hv d hd
      have hz : ind v = 0 := by
        have := (List.mem_filter.mp hv).2
        simpa using this
      have := F1 v
      rw [hz] at this
      have hnil : depsOf c v = [] := by
        have hlen : (depsOf c v).length = 0 := by omega
        exact List.length_eq_zero.mp hlen
      rw [hnil] at hd
      cases hd
    have hfuel : (keysOf c).length + 1 ≤
        ([] : List String).length + (c.length + 1) := by
      simp [keysOf]
    rcases hmaster hA hAk hB hC hD hE hfuel with ⟨_, h2, h3, h4, h5⟩
    exact ⟨h2, h3, h4, h5⟩

theorem kahnRun_complete {c : Container} {E : List String}
    (hnd : (keysOf c).Nodup) (hcl : ClosedB c = true) (hacyc : ¬ HasCycle c)
    (h : kahnRun c = .ok E) : ∀ v, v ∈ keysOf c → v ∈ E := by
  intro v0 hv0
  by_contra hstuck
  apply hacyc
  rcases kahnRun_ok_facts hnd h with ⟨_, _, _, hclose⟩
  apply cycle_of_stuck (fun v => v ∉ E) ⟨v0, hv0, hstuck⟩
  intro v hv hPv
  by_cases hall : ∀ d ∈ depsOf c v, d ∈ E
  · exact absurd (hclose v hv hall) hPv
  · push_neg at hall
    rcases hall with ⟨d, hd, hdE⟩
    exact ⟨d, ⟨closed_dep_key hcl hv hd, hdE⟩, edge_iff_depsOf.mpr ⟨hv, hd⟩⟩

theorem kahnRun_perm_keys {c : Container} {E : List String}
    (hnd : (keysOf c).Nodup) (hcl : ClosedB c = true) (hacyc : ¬ HasCycle c)
    (h : kahnRun c = .ok E) : E.Perm (keysOf c) := by
  rcases kahnRun_ok_facts hnd h with ⟨hEnd, hEk, _, _⟩
  have h1 : List.Subperm E (keysOf c) := hEnd.subperm hEk
  have h2 : List.Subperm (keysOf c) E :=
    hnd.subperm (kahnRun_complete hnd hcl hacyc h)
  exact h1.antisymm h2

theorem splitFinals_eq (c : Container) :
    ∀ (order : List String) (acc : List String × List String),
      order.foldl
        (fun acc a =>
          if isFinalIn c a then (acc.1, acc.2 ++ [a]) else (acc.1 ++ [a], acc.2))
        acc =
      (acc.1 ++ order.filter (fun a => !(isFinalIn c a)),
       acc.2 ++ order.filter (fun a => isFinalIn c a)) := by
  intro order
  induction order with
  | nil => intro acc; simp
  | cons a rest ih =>
    intro acc
    rcases hfin : isFinalIn c a with _ | _
    · simp only [List.foldl_cons, hfin, Bool.false_eq_true, if_false, ih,
        List.filter_cons, Bool.not_false, List.append_assoc, List.singleton_append]
      simp
    · simp only [List.foldl_cons, hfin, if_true, ih, List.filter_cons, Bool.not_true,
        List.append_assoc, List.singleton_append]
      simp

theorem splitFinals_parts (c : Container) (order : List String) :
    splitFinals c order =
      (order.filter (fun a => !(isFinalIn c a)),
       order.filter (fun a => isFinalIn c a)) := by
  rw [splitFinals, splitFinals_eq]
  simp

theorem buildOrder_from_kahn {c : Container} {ord : List String}
    (h : BuildOrder c = .ok ord) :
    ∃ E, kahnRun c = .ok E ∧ E.length = c.length ∧
      ord = E.filter (fun a => !(isFinalIn c a)) ++ E.filter (fun a => isFinalIn c a) := by
  rw [BuildOrder] at h
  rcases hk : kahnRun c with e | E
  · rw [hk] at h; cases h
  · rw [hk] at h
    have h2 : (if E.length = c.length then
        (let p := splitFinals c E; Except.ok (p.1 ++ p.2))
      else (Except.error BuildErr.circular : Except BuildErr (List String))) =
        Except.ok ord := h
    by_cases hlen : E.length = c.length
    · rw [if_pos hlen] at h2
      simp only [splitFinals_parts] at h2
      cases h2
      exact ⟨E, rfl, hlen, rfl⟩
    · rw [if_neg hlen] at h2
      cases h2

theorem kahnRun_err_eq {c : Container} {e : BuildErr}
    (hb : buildGraph c = .error e) : kahnRun c = .error e := by
  rw [kahnRun, hb]

theorem kahnRun_ok_eq {c : Container} {ind : String → Int} {g : String → List String}
    (hb : buildGraph c = .ok (ind, g)) :
    kahnRun c = .ok (drain g (c.length + 1)
      ((keysOf c).filter fun n => ind n == 0) ind []) := by
  rw [kahnRun, hb]

theorem kahnRun_ok_inv {c : Container} {E : List String}
    (h : kahnRun c = .ok E) : ∃ ind g, buildGraph c = .ok (ind, g) := by
  rcases hb : buildGraph c with e | ⟨ind, g⟩
  · rw [kahnRun_err_eq hb] at h; cases h
  · exact ⟨ind, g, rfl⟩

theorem buildOrder_err_eq {c : Container} {e : BuildErr}
    (hk : kahnRun c = .error e) : BuildOrder c = .error e := by
  rw [BuildOrder, hk]

theorem buildOrder_ok_eq {c : Container} {E : List String}
    (hk : kahnRun c = .ok E) (hlen : E.length = c.length) :
    BuildOrder c = .ok (E.filter (fun a => !(isFinalIn c a)) ++
      E.filter (fun a => isFinalIn c a)) := by
  rw [BuildOrder, hk]
  show (if E.length = c.length then
      (let p := splitFinals c E; Except.ok (p.1 ++ p.2))
    else (Except.error BuildErr.circular : Except BuildErr (List String))) = _
  rw [if_pos hlen]
  simp only [splitFinals_parts]

theorem buildOrder_circ_eq {c : Container} {E : List String}
    (hk : kahnRun c = .ok E) (hlen : E.length ≠ c.length) :
    BuildOrder c = .error .circular := by
  rw [BuildOrder, hk]
  show (if E.length = c.length then
      (let p := splitFinals c E; Except.ok (p.1 ++ p.2))
    else (Except.error BuildErr.circular : Except BuildErr (List String))) = _
  rw [if_neg hlen]

theorem buildGraph_ok_of_clean {c : Container} (hcl : ClosedB c = true)
    (hnf : NoFlagDepB c = true) : ∃ r, buildGraph c = .ok r := by
  apply buildGraphAux_ok_of_clean
  intro p hp d hd
  rcases Option.isSome_iff_exists.mp (closedB_iff.mp hcl p hp d hd) with ⟨fd, hfd⟩
  have := noFlagDepB_resolve hnf hp hd hfd
  exact ⟨fd, hfd, this.1, this.2⟩

theorem parts_perm (c : Container) (E : List String) :
    (E.filter (fun x => !(isFinalIn c x)) ++ E.filter (fun x => isFinalIn c x)).Perm E := by
  have h := List.filter_append_perm (fun x => !(isFinalIn c x)) E
  have h2 : E.filter (fun x => !(!(isFinalIn c x))) = E.filter (fun x => isFinalIn c x) := by
    apply List.filter_congr
    intro x _
    simp
  rwa [h2] at h

theorem partition_before {c : Container} {E : List String} {d a : String}
    (hsub : List.Sublist [d, a] E) (hdfin : isFinalIn c d = false) :
    PairBefore (E.filter (fun x => !(isFinalIn c x)) ++
      E.filter (fun x => isFinalIn c x)) d a := by
  rcases hafin : isFinalIn c a with _ | _
  · have hsub2 := hsub.filter (fun x => !(isFinalIn c x))
    have heq : [d, a].filter (fun x => !(isFinalIn c x)) = [d, a] := by
      simp [List.filter_cons, hdfin, hafin]
    rw [heq] at hsub2
    exact pair_sublist_before (hsub2.trans (List.sublist_append_left _ _))
  · have hd : d ∈ E := hsub.subset (by simp)
    have ha : a ∈ E := hsub.subset (by simp)
    have h1 : List.Sublist [d] (E.filter fun x => !(isFinalIn c x)) :=
      List.singleton_sublist.mpr (List.mem_filter.mpr ⟨hd, by simp [hdfin]⟩)
    have h2 : List.Sublist [a] (E.filter fun x => isFinalIn c x) :=
      List.singleton_sublist.mpr (List.mem_filter.mpr ⟨ha, by simp [hafin]⟩)
    exact pair_sublist_before (h1.append h2)

/-- Everything a successful `BuildOrder` guarantees: the order is a
duplicate-free enumeration of exactly the keys present in the Kahn result,
and every dependency is placed strictly before its dependent. -/
theorem buildOrder_ok_facts {c : Container} {ord : List String}
    (hnd : (keysOf c).Nodup) (h : BuildOrder c = .ok ord) :
    ord.Nodup ∧ (∀ x, x ∈ ord ↔ x ∈ keysOf c) ∧
    (∀ a f d, getM a c = some f → d ∈ f.Deps →
      isFinalIn c d.Name = false ∧ PairBefore ord d.Name a) := by
  rcases buildOrder_from_kahn h with ⟨E, hk, hlen, hord⟩
  rcases kahnRun_ok_facts hnd hk with ⟨hEnd, hEk, hEsound, _⟩
  rcases kahnRun_ok_inv hk with ⟨ind, g, hbg⟩
  have hclean := (buildGraph_ok_facts hnd hbg).2.2.2
  have hperm : E.Perm (keysOf c) := by
    have h1 : List.Subperm E (keysOf c) := hEnd.subperm hEk
    apply h1.perm_of_length_le
    have : (keysOf c).length = c.length := by simp [keysOf]
    omega
  have hop : ord.Perm E := hord ▸ parts_perm c E
  refine ⟨hop.nodup_iff.mpr hEnd, ?_, ?_⟩
  · intro x
    rw [hop.mem_iff, hperm.mem_iff]
  · intro a f d hf hd
    have hdin : d.Name ∈ depsOf c a := by
      rw [depsOf_eq hf]
      exact List.mem_map.mpr ⟨d, hd, rfl⟩
    rcases hclean (a, f) (getM_some_mem hf) d hd with ⟨fd, hfd, hF, _⟩
    have hdfin : isFinalIn c d.Name = false := by
      rw [isFinalIn, hfd]
      exact hF
    have haE : a ∈ E := (hperm.mem_iff).mpr (getM_mem_keys hf)
    have hsub := hEsound a haE d.Name hdin
    exact ⟨hdfin, hord ▸ partition_before hsub hdfin⟩

theorem depPath_target_key {c : Container} {d a : String}
    (h : DepPath c d a) : a ∈ keysOf c := by
  induction h with
  | single he => exact (edge_iff_depsOf.mp he).1
  | cons _ _ ih => exact ih

/-! ### Claim C1 -/

/-- Acyclic, closed, but with a dependency on a Final-flagged factory. -/
def c1cex : Container :=
  [("a", { F0 with Deps := [⟨"b", false⟩] }), ("b", { F0 with Final := true })]

/-- C1, counterexample: the claim quantifies over every DIConfig whose graph
is acyclic and closed ("every Dependency name keys a Factory"), but on such
a config whose dependency targets a Final-flagged factory `BuildOrder`
returns the final-item error instead of any order, so the claim as stated is
false. -/
theorem c1_counterexample :
    ClosedB c1cex = true ∧ (¬ HasCycle c1cex) ∧
    BuildOrder c1cex = .error (.finalDep "b" "a") ∧
    ∀ ord, BuildOrder c1cex ≠ .ok ord := by
  refine ⟨by decide, no_cycle_of_rank (fun s => if s = "b" then 0 else 1) (by decide),
    by decide, ?_⟩
  intro ord h
  rw [show BuildOrder c1cex = .error (.finalDep "b" "a") from by decide] at h
  cases h

/-- C1 (amended: additionally no factory's dependency list names a Final- or
Disable-flagged factory — otherwise `BuildOrder` rejects the config): for
every DIConfig with duplicate-free keys whose dependency graph is acyclic,
whose every dependency name keys a factory, and whose dependencies avoid
flagged factories, `BuildOrder` returns an order listing each alias exactly
once in which every dependency's position strictly precedes its dependent's
position. -/
theorem c1_amended_topological_order (c : Container)
    (hnd : (keysOf c).Nodup) (hcl : ClosedB c = true)
    (hnf : NoFlagDepB c = true) (hacyc : ¬ HasCycle c) :
    ∃ ord, BuildOrder c = .ok ord ∧
      (∀ a, a ∈ keysOf c → ord.count a = 1) ∧
      (∀ a, a ∈ ord → a ∈ keysOf c) ∧
      (∀ a f d, getM a c = some f → d ∈ f.Deps → PairBefore ord d.Name a) := by
  rcases buildGraph_ok_of_clean hcl hnf with ⟨⟨ind, g⟩, hbg⟩
  have hk := kahnRun_ok_eq hbg
  have hperm := kahnRun_perm_keys hnd hcl hacyc hk
  have hlen : (drain g (c.length + 1)
      ((keysOf c).filter fun n => ind n == 0) ind []).length = c.length := by
    rw [hperm.length_eq]
    simp [keysOf]
  have hbo := buildOrder_ok_eq hk hlen
  rcases buildOrder_ok_facts hnd hbo with ⟨hond, hmem, hprec⟩
  refine ⟨_, hbo, ?_, fun a ha => (hmem a).mp ha, fun a f d hf hd => (hprec a f d hf hd).2⟩
  intro a ha
  exact List.count_eq_one_of_mem hond ((hmem a).mpr ha)

/-- A two-node chain used to instantiate C1's hypotheses concretely. -/
def c1wit : Container :=
  [("db", F0), ("cache", { F0 with Deps := [⟨"db", false⟩] })]

theorem c1_witness :
    ((keysOf c1wit).Nodup ∧ ClosedB c1wit = true ∧ NoFlagDepB c1wit = true ∧
      ¬ HasCycle c1wit) ∧
    (∃ ord, BuildOrder c1wit = .ok ord ∧
      (∀ a, a ∈ keysOf c1wit → ord.count a = 1) ∧
      (∀ a, a ∈ ord → a ∈ keysOf c1wit) ∧
      (∀ a f d, getM a c1wit = some f → d ∈ f.Deps → PairBefore ord d.Name a)) :=
  have hacyc : ¬ HasCycle c1wit :=
    no_cycle_of_rank (fun s => if s = "db" then 0 else 1) (by decide)
  ⟨⟨by decide, by decide, by decide, hacyc⟩,
    c1_amended_topological_order c1wit (by decide) (by decide) (by decide) hacyc⟩

/-! ### Claim C2 -/

/-- C2: every order successfully returned by `BuildOrder` is the
queue-draining (Kahn) result stably partitioned: the non-Final nodes in
their draining order, followed by the Final nodes in their draining order —
so the Final aliases form a contiguous suffix and each group preserves the
relative order of the draining phase. -/
theorem c2_final_suffix_stable (c : Container) (ord : List String)
    (h : BuildOrder c = .ok ord) :
    ∃ E pre suf, kahnRun c = .ok E ∧ ord = pre ++ suf ∧
      pre = E.filter (fun a => !(isFinalIn c a)) ∧
      suf = E.filter (fun a => isFinalIn c a) ∧
      (∀ a ∈ pre, isFinalIn c a = false) ∧
      (∀ a ∈ suf, isFinalIn c a = true) := by
  rcases buildOrder_from_kahn h with ⟨E, hk, _, hord⟩
  refine ⟨E, _, _, hk, hord, rfl, rfl, ?_, ?_⟩
  · intro a ha
    have := (List.mem_filter.mp ha).2
    simpa using this
  · intro a ha
    exact (List.mem_filter.mp ha).2

/-- A config with one Final node for C2's witness. -/
def c2wit : Container := [("a", F0), ("f", { F0 with Final := true })]

theorem c2_witness :
    BuildOrder c2wit = .ok ["a", "f"] ∧
    (∃ E pre suf, kahnRun c2wit = .ok E ∧ (["a", "f"] : List String) = pre ++ suf ∧
      pre = E.filter (fun a => !(isFinalIn c2wit a)) ∧
      suf = E.filter (fun a => isFinalIn c2wit a) ∧
      (∀ a ∈ pre, isFinalIn c2wit a = false) ∧
      (∀ a ∈ suf, isFinalIn c2wit a = true)) :=
  ⟨by decide, c2_final_suffix_stable c2wit ["a", "f"] (by decide)⟩

/-! ### Claim C3 -/

/-- A self-cycle plus one unresolved dependency name. -/
def c3cex : Container := [("a", { F0 with Deps := [⟨"a", false⟩, ⟨"x", false⟩] })]

/-- C3, counterexample: the claim quantifies over every DIConfig containing
a cycle and no dependency on a Final/Disable node, but if some dependency
name does not key a factory the Go code dereferences a nil `*Factory` and
panics (modelled `nilPanic`) before the cycle check, so no "circular
dependency" error is returned and the claim as stated is false. -/
theorem c3_counterexample :
    HasCycle c3cex ∧ NoFlagDepB c3cex = true ∧
    BuildOrder c3cex = .error (.nilPanic "x") ∧
    BuildOrder c3cex ≠ .error .circular :=
  ⟨⟨"a", .single ⟨{ F0 with Deps := [⟨"a", false⟩, ⟨"x", false⟩] }, rfl, by decide⟩⟩,
    by decide, by decide, by decide⟩

/-- C3 (amended: additionally every dependency name keys a factory — an
unresolved name makes the Go code panic before cycle detection): for every
DIConfig with duplicate-free keys whose graph contains a cycle, all of whose
dependency names key factories, none of them flagged, `BuildOrder` returns
the fatal "circular dependency" error and never an order. -/
theorem c3_amended_circular (c : Container) (hnd : (keysOf c).Nodup)
    (hcl : ClosedB c = true) (hnf : NoFlagDepB c = true) (hcyc : HasCycle c) :
    BuildOrder c = .error .circular ∧ ∀ ord, BuildOrder c ≠ .ok ord := by
  rcases buildGraph_ok_of_clean hcl hnf with ⟨⟨ind, g⟩, hbg⟩
  have hk := kahnRun_ok_eq hbg
  rcases kahnRun_ok_facts hnd hk with ⟨hEnd, hEk, hEsound, _⟩
  rcases hcyc with ⟨v, hv⟩
  have hvkey : v ∈ keysOf c := depPath_target_key hv
  have hvnot := cycle_node_not_emitted hEnd hEsound hv
  have hlen : (drain g (c.length + 1)
      ((keysOf c).filter fun n => ind n == 0) ind []).length ≠ c.length := by
    have hsub : ∀ x ∈ drain g (c.length + 1)
        ((keysOf c).filter fun n => ind n == 0) ind [], x ∈ (keysOf c).erase v := by
      intro x hx
      have hxk := hEk x hx
      have hxv : x ≠ v := fun he => hvnot (he ▸ hx)
      exact (List.mem_erase_of_ne hxv).mpr hxk
    have hle := nodup_subset_length hEnd hsub
    have herase := List.length_erase_of_mem hvkey
    have hklen : (keysOf c).length = c.length := by simp [keysOf]
    have hpos : 0 < (keysOf c).length := List.length_pos_of_mem hvkey
    omega
  have hres := buildOrder_circ_eq hk hlen
  refine ⟨hres, ?_⟩
  intro ord h
  rw [hres] at h
  cases h

/-- The spec's two-node cycle, closed and unflagged, for C3's witness. -/
def c3wit : Container :=
  [("a", { F0 with Deps := [⟨"b", false⟩] }), ("b", { F0 with Deps := [⟨"a", false⟩] })]

theorem c3_witness :
    ((keysOf c3wit).Nodup ∧ ClosedB c3wit = true ∧ NoFlagDepB c3wit = true ∧
      HasCycle c3wit) ∧
    (BuildOrder c3wit = .error .circular ∧ ∀ ord, BuildOrder c3wit ≠ .ok ord) :=
  have hcyc : HasCycle c3wit :=
    ⟨"a", @DepPath.cons c3wit "a" "b" "a"
      ⟨{ F0 with Deps := [⟨"a", false⟩] }, by decide, by decide⟩
      (.single ⟨{ F0 with Deps := [⟨"b", false⟩] }, by decide, by decide⟩)⟩
  ⟨⟨by decide, by decide, by decide, hcyc⟩,
    c3_amended_circular c3wit (by decide) (by decide) (by decide) hcyc⟩

/-! ### Claim C4 -/

/-- An unresolved dependency scanned before the flagged one. -/
def c4cex : Container :=
  [("a", { F0 with Deps := [⟨"x", false⟩] }),
   ("b", { F0 with Deps := [⟨"f", false⟩] }),
   ("f", { F0 with Final := true })]

/-- C4, counterexample: the claim quantifies over every DIConfig in which
some dependency's factory is flagged Final or Disable, but when another
dependency name fails to resolve the Go code panics on the nil `*Factory`
(modelled `nilPanic`) before reaching the flagged edge, so no error naming
the offending dependency and dependent is returned; the claim as stated is
false. -/
theorem c4_counterexample :
    (∃ p ∈ c4cex, ∃ d ∈ p.2.Deps, flaggedDepB c4cex d = true) ∧
    BuildOrder c4cex = .error (.nilPanic "x") ∧
    (∀ dep dependent, BuildOrder c4cex ≠ .error (.finalDep dep dependent)) ∧
    (∀ dep dependent, BuildOrder c4cex ≠ .error (.disableDep dep dependent)) := by
  refine ⟨by decide, by decide, ?_, ?_⟩ <;>
    · intro dep dependent h
      rw [show BuildOrder c4cex = .error (.nilPanic "x") from by decide] at h
      cases h

/-- C4 (amended: additionally every dependency name keys a factory): for
every DIConfig in which some factory's dependency list names a Final- or
Disable-flagged factory and every dependency name resolves, `BuildOrder`
returns the fatal error carrying the offending dependency's name and its
dependent's alias (`finalDep`/`disableDep`), even when the graph is
otherwise acyclic, and never returns an order. -/
theorem c4_amended_flag_error (c : Container) (hcl : ClosedB c = true)
    (hbad : ∃ p ∈ c, ∃ d ∈ p.2.Deps, flaggedDepB c d = true) :
    ∃ a f d fd, (a, f) ∈ c ∧ d ∈ f.Deps ∧ getM d.Name c = some fd ∧
      ((fd.Final = true ∧ BuildOrder c = .error (.finalDep d.Name a)) ∨
       (fd.Final = false ∧ fd.Disable = true ∧
         BuildOrder c = .error (.disableDep d.Name a))) ∧
      (∀ ord, BuildOrder c ≠ .ok ord) := by
  have hres : ∀ p ∈ c, ∀ d ∈ p.2.Deps, (getM d.Name c).isSome = true :=
    closedB_iff.mp hcl
  rcases @buildGraphAux_flag_error c c (fun _ => 0) (fun _ => [])
      hres hbad with ⟨a, f, d, fd, hmem, hd, hfd, hcase⟩
  have lift : ∀ e, buildGraphAux c c (fun _ => 0) (fun _ => []) = .error e →
      BuildOrder c = .error e := by
    intro e he
    exact buildOrder_err_eq (kahnRun_err_eq he)
  rcases hcase with ⟨h1, h2⟩ | ⟨h1, h2, h3⟩
  · refine ⟨a, f, d, fd, hmem, hd, hfd, .inl ⟨h1, lift _ h2⟩, ?_⟩
    intro ord h
    rw [lift _ h2] at h
    cases h
  · refine ⟨a, f, d, fd, hmem, hd, hfd, .inr ⟨h1, h2, lift _ h3⟩, ?_⟩
    intro ord h
    rw [lift _ h3] at h
    cases h

/-- An acyclic config with a dependency on a Final node for C4's witness. -/
def c4wit : Container :=
  [("b", { F0 with Deps := [⟨"f", false⟩] }), ("f", { F0 with Final := true })]

theorem c4_witness :
    (ClosedB c4wit = true ∧
      (∃ p ∈ c4wit, ∃ d ∈ p.2.Deps, flaggedDepB c4wit d = true)) ∧
    (∃ a f d fd, (a, f) ∈ c4wit ∧ d ∈ f.Deps ∧ getM d.Name c4wit = some fd ∧
      ((fd.Final = true ∧ BuildOrder c4wit = .error (.finalDep d.Name a)) ∨
       (fd.Final = false ∧ fd.Disable = true ∧
         BuildOrder c4wit = .error (.disableDep d.Name a))) ∧
      (∀ ord, BuildOrder c4wit ≠ .ok ord)) :=
  ⟨⟨by decide, by decide⟩, c4_amended_flag_error c4wit (by decide) (by decide)⟩

/-! ### Scanner lemmas for claims C5 and C9 -/

theorem getM_append {β : Type} {a : String} :
    ∀ (l1 l2 : List (String × β)),
      getM a (l1 ++ l2) =
        (match getM a l1 with
         | some v => some v
         | none => getM a l2) := by
  intro l1 l2
  induction l1 with
  | nil => simp [getM]
  | cons p ps ih =>
    by_cases hp : p.1 = a <;> simp [getM, hp, ih]

/-- Number of factory annotations declaring the alias `als`. -/
def facCount (anns : List Ann) (als : String) : Nat :=
  anns.countP (fun an =>
    match an with
    | .factory _ _ a => a == als
    | .wire _ _ _ => false)

/-- Aliases declared by the factory annotations, in order. -/
def facAliases : List Ann → List String
  | [] => []
  | .factory _ _ a :: rest => a :: facAliases rest
  | .wire _ _ _ :: rest => facAliases rest

theorem buildFactories_cons_factory {modName p fn als : String} {rest : List Ann}
    {acc : Container} :
    buildFactories modName (.factory p fn als :: rest) acc =
      (match getM als acc with
       | some existing =>
         if existing.Module = p then .error (.duplicateAliasIn als existing.Module)
         else .error (.aliasUsedBy als existing.Module)
       | none => buildFactories modName rest
           (acc ++ [(als, { F0 with Function := fn, Module := joinPath modName p })])) := rfl

theorem buildFactories_ok_count {modName : String} :
    ∀ {anns : List Ann} {acc cont : Container},
      buildFactories modName anns acc = .ok cont →
      ∀ a, facCount anns a + (if (getM a acc).isSome then 1 else 0) ≤ 1 := by
  intro anns
  induction anns with
  | nil =>
    intro acc cont _ a
    rcases h : (getM a acc).isSome <;> simp [facCount, h]
  | cons an rest ih =>
    intro acc cont h a
    match an with
    | .wire wp wt wd =>
      have := ih (by simpa [buildFactories] using h) a
      simpa [facCount, List.countP_cons] using this
    | .factory p fn als =>
      rw [buildFactories_cons_factory] at h
      rcases hg : getM als acc with _ | f0
      · rw [hg] at h
        have h2 : buildFactories modName rest
            (acc ++ [(als, { F0 with Function := fn, Module := joinPath modName p })]) =
            .ok cont := h
        have hrec := ih h2
        by_cases ha : a = als
        · subst ha
          have hsome : (getM a (acc ++
              [(a, { F0 with Function := fn, Module := joinPath modName p })])).isSome = true := by
            rw [getM_append, hg]
            simp [getM]
          have hx := hrec a
          rw [hsome] at hx
          simp only [if_true] at hx
          have hcnt : facCount (Ann.factory p fn a :: rest) a = facCount rest a + 1 := by
            simp [facCount, List.countP_cons]
          rw [hcnt, hg]
          simp only [Option.isSome_none, Bool.false_eq_true, if_false]
          omega
        · have hne : als ≠ a := fun he => ha he.symm
          have hgacc : getM a (acc ++
              [(als, { F0 with Function := fn, Module := joinPath modName p })]) =
              getM a acc := by
            rw [getM_append]
            rcases hx : getM a acc with _ | v
            · simp [getM, hne]
            · rfl
          have hx := hrec a
          rw [hgacc] at hx
          have hcnt : facCount (Ann.factory p fn als :: rest) a = facCount rest a := by
            simp only [facCount, List.countP_cons]
            have : (als == a) = false := by simp [hne]
            simp [this]
          rw [hcnt]
          omega
      · rw [hg] at h
        have h2 : (if f0.Module = p then
            (Except.error (ScanErr.duplicateAliasIn als f0.Module) : Except ScanErr Container)
          else .error (.aliasUsedBy als f0.Module)) = .ok cont := h
        by_cases hmod : f0.Module = p
        · rw [if_pos hmod] at h2; cases h2
        · rw [if_neg hmod] at h2; cases h2

theorem buildFactories_err_shape {modName : String} :
    ∀ (anns : List Ann) (acc : Container),
      (∃ cont, buildFactories modName anns acc = .ok cont) ∨
      (∃ a m, buildFactories modName anns acc = .error (.duplicateAliasIn a m) ∨
              buildFactories modName anns acc = .error (.aliasUsedBy a m)) := by
  intro anns
  induction anns with
  | nil => intro acc; exact .inl ⟨acc, rfl⟩
  | cons an rest ih =>
    intro acc
    match an with
    | .wire wp wt wd => simpa [buildFactories] using ih acc
    | .factory p fn als =>
      simp only [buildFactories]
      rcases hg : getM als acc with _ | f0
      · exact ih _
      · by_cases hmod : f0.Module = p
        · exact .inr ⟨als, f0.Module, .inl (by simp [hmod])⟩
        · exact .inr ⟨als, f0.Module, .inr (by simp [hmod])⟩

/-! ### Claim C5 -/

/-- `sub` occurs as a contiguous substring of `s` (computable). -/
def containsStrB (s sub : String) : Bool :=
  (List.range (s.data.length + 1)).any (fun i => sub.data.isPrefixOf (s.data.drop i))

/-- Same-origin and cross-origin duplicate declarations of alias `db`. -/
def c5same : List Ann := [.factory "p" "F1" "db", .factory "p" "F2" "db"]

/-- Cross-origin duplicate declarations of alias `db`. -/
def c5cross : List Ann := [.factory "p1" "F1" "db", .factory "p2" "F2" "db"]

/-- C5, counterexample: a duplicate alias is a fatal error, but (a) the
same-origin/cross-origin discrimination compares the stored module-joined
path `m/p` against the raw path `p`, which never match, so even a
same-origin duplicate yields the cross-origin "Alias … used by …" message;
and (b) the message carries only the first declaration's module — the
second declaring location (`p2`) appears nowhere in it.  So the error
neither distinguishes the two cases nor names both declaring locations, and
the claim as stated is false. -/
theorem c5_counterexample :
    buildDIConfig "m" c5same = .error (.aliasUsedBy "db" "m/p") ∧
    buildDIConfig "m" c5cross = .error (.aliasUsedBy "db" "m/p1") ∧
    containsStrB (errMsg (.aliasUsedBy "db" "m/p1")) "p2" = false :=
  ⟨rfl, rfl, by decide⟩

/-- C5 (amended): for every annotation list containing two Factory
annotations with the same alias, the graph-building phase of
`ScanProjectAndGenerateDI` returns a fatal duplicate-alias error — one of
the two message forms, carrying the duplicated alias and the module
recorded for the first declaration — and produces no DIConfig.  (The two
message forms are selected by comparing the stored module-joined path with
the new annotation's raw path, so with a nonempty module name even
same-origin duplicates produce the "Alias … used by …" form, and neither
form names the second declaring location.) -/
theorem c5_amended_duplicate_alias (modName : String) (anns : List Ann)
    (hdup : ∃ a, 2 ≤ facCount anns a) :
    ∃ a m, (buildDIConfig modName anns = .error (.duplicateAliasIn a m) ∨
            buildDIConfig modName anns = .error (.aliasUsedBy a m)) ∧
      ∀ cont, buildDIConfig modName anns ≠ .ok cont := by
  rcases hdup with ⟨a0, ha0⟩
  rcases @buildFactories_err_shape modName anns [] with ⟨cont, hok⟩ | herr
  · have := buildFactories_ok_count hok a0
    simp [getM] at this
    omega
  · rcases herr with ⟨a, m, herr⟩
    have hlift : ∀ e, buildFactories modName anns [] = .error e →
        buildDIConfig modName anns = .error e := by
      intro e he
      rw [buildDIConfig, he]
    rcases herr with he | he
    · refine ⟨a, m, .inl (hlift _ he), ?_⟩
      intro cont hcon
      rw [hlift _ he] at hcon
      cases hcon
    · refine ⟨a, m, .inr (hlift _ he), ?_⟩
      intro cont hcon
      rw [hlift _ he] at hcon
      cases hcon

theorem c5_witness :
    (∃ a, 2 ≤ facCount c5same a) ∧
    (∃ a m, (buildDIConfig "m" c5same = .error (.duplicateAliasIn a m) ∨
             buildDIConfig "m" c5same = .error (.aliasUsedBy a m)) ∧
      ∀ cont, buildDIConfig "m" c5same ≠ .ok cont) :=
  ⟨⟨"db", by decide⟩, c5_amended_duplicate_alias "m" c5same ⟨"db", by decide⟩⟩

/-! ### Claim C8 -/

/-- C8 (the code, not the claim, is at fault): a `@factory:` value without
`"->"` makes `parseFactoryAnnotation` index `splitted[1]` out of range and a
`@wire:` value not matching the `name(...)` shape makes
`parseWireAnnotation` index the `nil` regexp match — both are runtime
panics that crash the scan (modelled `none`), not file-local parse errors;
and a `@factory:` value with an empty arrow-side token or extra arrows is
accepted silently instead of failing.  This theorem evaluates the modelled
parsers at those inputs. -/
theorem c8_parser_crashes :
    parseFactoryAnn "p" "NewDB" = none ∧
    parseWireAnn "p" "server" = none ∧
    parseFactoryAnn "p" "-> db" = some (.factory "p" "" "db") ∧
    parseFactoryAnn "p" "a -> b -> c" = some (.factory "p" "a" "b") :=
  ⟨rfl, rfl, rfl, rfl⟩

/-! ### Claim C9 -/

theorem buildFactories_wire_congr {modName wp wt : String} {wd : List String}
    {ys : List Ann} :
    ∀ (xs : List Ann) (acc : Container),
      buildFactories modName (xs ++ .wire wp wt wd :: ys) acc =
        buildFactories modName (xs ++ ys) acc := by
  intro xs
  induction xs with
  | nil => intro acc; simp [buildFactories]
  | cons an rest ih =>
    intro acc
    match an with
    | .wire p t d => simp [buildFactories, ih]
    | .factory p fn als =>
      rw [List.cons_append, List.cons_append, buildFactories_cons_factory,
        buildFactories_cons_factory]
      rcases hg : getM als acc with _ | f0
      · exact ih _
      · rfl

theorem keysOf_setF (c : Container) (k : String) (f : Factory) :
    keysOf (setF c k f) = keysOf c := by
  simp only [keysOf, setF, List.map_map]
  apply List.map_congr_left
  intro p _
  by_cases hp : p.1 = k <;> simp [hp]

theorem applyWires_cons_wire {p t : String} {d : List String} {rest : List Ann}
    {cont : Container} :
    applyWires (.wire p t d :: rest) cont =
      (match getM t cont with
       | none => applyWires rest cont
       | some f =>
         match resolveDeps cont t f.Module d with
         | .error e => .error e
         | .ok deps => applyWires rest (setF cont t { f with Deps := deps })) := rfl

theorem applyWires_skip {wp wt : String} {wd : List String} {ys : List Ann} :
    ∀ (xs : List Ann) (cont : Container), wt ∉ keysOf cont →
      applyWires (xs ++ .wire wp wt wd :: ys) cont = applyWires (xs ++ ys) cont := by
  intro xs
  induction xs with
  | nil =>
    intro cont hwt
    have hg : getM wt cont = none := getM_eq_none_of_not_mem hwt
    simp only [List.nil_append, applyWires_cons_wire, hg]
  | cons an rest ih =>
    intro cont hwt
    match an with
    | .factory p fn als =>
      rw [List.cons_append, List.cons_append]
      show applyWires (rest ++ .wire wp wt wd :: ys) cont = applyWires (rest ++ ys) cont
      exact ih cont hwt
    | .wire p t d =>
      rw [List.cons_append, List.cons_append, applyWires_cons_wire, applyWires_cons_wire]
      rcases hg : getM t cont with _ | f
      · exact ih cont hwt
      · show (match resolveDeps cont t f.Module d with
            | Except.error e => (Except.error e : Except ScanErr Container)
            | Except.ok deps => applyWires (rest ++ Ann.wire wp wt wd :: ys)
                (setF cont t { f with Deps := deps })) =
          (match resolveDeps cont t f.Module d with
            | Except.error e => Except.error e
            | Except.ok deps => applyWires (rest ++ ys) (setF cont t { f with Deps := deps }))
        rcases hr : resolveDeps cont t f.Module d with e | deps
        · rfl
        · exact ih _ (by rw [keysOf_setF]; exact hwt)

/-- C9: a Wire annotation whose target alias has no factory node is
silently ignored — the graph-building phase raises no error for it and
produces exactly the DIConfig built from the same annotation list without
that Wire annotation. -/
theorem c9_unmatched_wire_ignored (modName wp wt : String) (wd : List String)
    (xs ys : List Ann)
    (htgt : ∀ cont, buildFactories modName (xs ++ ys) [] = .ok cont →
      getM wt cont = none) :
    buildDIConfig modName (xs ++ .wire wp wt wd :: ys) =
      buildDIConfig modName (xs ++ ys) := by
  rw [buildDIConfig, buildDIConfig, buildFactories_wire_congr]
  rcases hf : buildFactories modName (xs ++ ys) [] with e | cont
  · rfl
  · have hwt : wt ∉ keysOf cont := by
      intro hmem
      have hs := @getM_isSome_of_mem_keys Factory cont wt hmem
      rw [htgt cont hf] at hs
      cases hs
    exact applyWires_skip xs cont hwt

theorem c9_witness :
    (∀ cont, buildFactories "m" ([Ann.factory "p" "NewDB" "db"] ++ []) [] = .ok cont →
      getM "ghost" cont = none) ∧
    buildDIConfig "m" ([Ann.factory "p" "NewDB" "db"] ++ .wire "q" "ghost" ["db"] :: []) =
      buildDIConfig "m" ([Ann.factory "p" "NewDB" "db"] ++ []) := by
  have htgt : ∀ cont, buildFactories "m" ([Ann.factory "p" "NewDB" "db"] ++ []) [] =
      .ok cont → getM "ghost" cont = none := by
    intro cont h
    rw [show buildFactories "m" ([Ann.factory "p" "NewDB" "db"] ++ []) [] =
      Except.ok [("db", { F0 with Function := "NewDB", Module := "m/p" })] from rfl] at h
    cases h
    rfl
  exact ⟨htgt, c9_unmatched_wire_ignored "m" "q" "ghost" ["db"]
    [Ann.factory "p" "NewDB" "db"] [] htgt⟩

/-! ### Emitter lemmas for claims C6 and C10 -/

theorem getM_mapReplace_self {k v : String} :
    ∀ m : List (String × String), (getM k m).isSome = true →
      getM k (m.map (fun p => if p.1 = k then (k, v) else p)) = some v := by
  intro m
  induction m with
  | nil => intro h; simp [getM] at h
  | cons p ps ih =>
    intro h
    by_cases hpk : p.1 = k
    · simp [getM, hpk]
    · simp only [getM, hpk, Bool.false_eq_true, ite_false, if_neg] at h
      simp only [List.map_cons, if_neg hpk]
      simpa [getM, hpk] using ih h

theorem getM_mapReplace_ne {k v x : String} (hx : x ≠ k) :
    ∀ m : List (String × String),
      getM x (m.map (fun p => if p.1 = k then (k, v) else p)) = getM x m := by
  intro m
  induction m with
  | nil => simp [getM]
  | cons p ps ih =>
    by_cases hpk : p.1 = k
    · have h1 : ¬ (k = x) := fun h => hx h.symm
      have h2 : ¬ (p.1 = x) := fun h => hx (h ▸ hpk)
      simp only [List.map_cons, if_pos hpk, getM, h1, h2, ite_false, if_neg]
      exact ih
    · simp only [List.map_cons, if_neg hpk, getM]
      by_cases hpx : p.1 = x
      · simp [hpx]
      · simp [hpx, ih]

theorem setM_get_self (m : List (String × String)) (k v : String) :
    getM k (setM m k v) = some v := by
  rw [setM]
  rcases hs : (getM k m).isSome with _ | _
  · simp only [hs, Bool.false_eq_true, if_false]
    rw [getM_append]
    have hnone : getM k m = none := by
      rcases hg : getM k m with _ | w
      · rfl
      · rw [hg] at hs; cases hs
    rw [hnone]
    simp [getM]
  · simp only [hs, if_true]
    exact getM_mapReplace_self m hs

theorem setM_get_ne (m : List (String × String)) (k v x : String) (hx : x ≠ k) :
    getM x (setM m k v) = getM x m := by
  rw [setM]
  rcases hs : (getM k m).isSome with _ | _
  · simp only [hs, Bool.false_eq_true, if_false]
    rw [getM_append]
    rcases hg : getM x m with _ | w
    · have hkx : ¬ (k = x) := fun h => hx h.symm
      simp [getM, hkx]
    · rfl
  · simp only [hs, if_true]
    exact getM_mapReplace_ne hx m

theorem resolveImport_container (ctx : GenCtx) (m : String) :
    (resolveImport ctx m).1.Container = ctx.Container := by
  rw [resolveImport]
  rcases getM m ctx.ImportID with _ | a <;> rfl

theorem genArgsWith_pres {step : GenCtx → Dependency → Option (GenCtx × Expr)}
    (hstep : ∀ cx d r, step cx d = some r → r.1.Container = cx.Container) :
    ∀ (ds : List Dependency) (ctx : GenCtx) (r : GenCtx × List Expr),
      genArgsWith step ctx ds = some r → r.1.Container = ctx.Container := by
  intro ds
  induction ds with
  | nil =>
    intro ctx r h
    simp only [genArgsWith] at h
    cases h
    rfl
  | cons d rest ih =>
    intro ctx r h
    simp only [genArgsWith] at h
    rcases hs : step ctx d with _ | p
    · rw [hs] at h
      simp at h
    · rw [hs] at h
      have h2 : (match genArgsWith step p.1 rest with
        | none => none
        | some q => some (q.1, p.2 :: q.2)) = some r := h
      rcases hr : genArgsWith step p.1 rest with _ | q
      · rw [hr] at h2
        simp at h2
      · rw [hr] at h2
        have h3 : some (q.1, p.2 :: q.2) = some r := h2
        cases h3
        rw [ih p.1 q hr, hstep ctx d p hs]

theorem genDepExpr_container (c : Container) :
    ∀ (fuel : Nat) (ctx : GenCtx) (d : Dependency) (r : GenCtx × Expr),
      genDepExpr c fuel ctx d = some r → r.1.Container = ctx.Container := by
  intro fuel
  induction fuel with
  | zero => intro ctx d r h; cases h
  | succ fuel ih =>
    intro ctx d r h
    rcases hst : d.Standalone with _ | _
    · simp only [genDepExpr, hst, Bool.false_eq_true, if_false] at h
      cases h
      rfl
    · simp only [genDepExpr, hst, if_true] at h
      rcases hg : getM d.Name c with _ | f
      · rw [hg] at h
        simp at h
      · rw [hg] at h
        have h2 : (match genArgsWith (fun cx sub => genDepExpr c fuel cx sub)
            (resolveImport ctx f.Module).1 f.Deps with
          | none => none
          | some p => some (p.1, .call (resolveImport ctx f.Module).2 f.Function p.2)) =
            some r := h
        rcases ha : genArgsWith (fun cx sub => genDepExpr c fuel cx sub)
            (resolveImport ctx f.Module).1 f.Deps with _ | p
        · rw [ha] at h2
          simp at h2
        · rw [ha] at h2
          have h3 : some (p.1, Expr.call (resolveImport ctx f.Module).2 f.Function p.2) =
              some r := h2
          cases h3
          rw [genArgsWith_pres (fun cx d r hr => ih cx d r hr) f.Deps _ p ha,
            resolveImport_container]

theorem genArgsWith_length {step : GenCtx → Dependency → Option (GenCtx × Expr)} :
    ∀ (ds : List Dependency) (ctx ctx2 : GenCtx) (es : List Expr),
      genArgsWith step ctx ds = some (ctx2, es) → es.length = ds.length := by
  intro ds
  induction ds with
  | nil =>
    intro ctx ctx2 es h
    simp only [genArgsWith] at h
    cases h
    rfl
  | cons d rest ih =>
    intro ctx ctx2 es h
    simp only [genArgsWith] at h
    rcases hs : step ctx d with _ | p
    · rw [hs] at h
      simp at h
    · rw [hs] at h
      have h2 : (match genArgsWith step p.1 rest with
        | none => none
        | some q => some (q.1, p.2 :: q.2)) = some (ctx2, es) := h
      rcases hr : genArgsWith step p.1 rest with _ | q
      · rw [hr] at h2
        simp at h2
      · rw [hr] at h2
        have h3 : some (q.1, p.2 :: q.2) = some (ctx2, es) := h2
        cases h3
        simp [ih p.1 q.1 q.2 (by rw [hr])]

theorem genArgsWith_elem {step : GenCtx → Dependency → Option (GenCtx × Expr)}
    (hstep : ∀ cx d r, step cx d = some r → r.1.Container = cx.Container) :
    ∀ (ds : List Dependency) (ctx ctx2 : GenCtx) (es : List Expr),
      genArgsWith step ctx ds = some (ctx2, es) →
      ∀ j (hj : j < ds.length), ∃ (hj2 : j < es.length) (cx cy : GenCtx),
        cx.Container = ctx.Container ∧
        step cx (ds.get ⟨j, hj⟩) = some (cy, es.get ⟨j, hj2⟩) := by
  intro ds
  induction ds with
  | nil =>
    intro ctx ctx2 es h j hj
    simp at hj
  | cons d rest ih =>
    intro ctx ctx2 es h j hj
    simp only [genArgsWith] at h
    rcases hs : step ctx d with _ | p
    · rw [hs] at h
      simp at h
    · rw [hs] at h
      have h2 : (match genArgsWith step p.1 rest with
        | none => none
        | some q => some (q.1, p.2 :: q.2)) = some (ctx2, es) := h
      rcases hr : genArgsWith step p.1 rest with _ | q
      · rw [hr] at h2
        simp at h2
      · rw [hr] at h2
        have h3 : some (q.1, p.2 :: q.2) = some (ctx2, es) := h2
        cases h3
        match j with
        | 0 =>
          refine ⟨by simp, ctx, p.1, rfl, ?_⟩
          rcases p with ⟨p1, p2⟩
          simpa using hs
        | j + 1 =>
          have hj' : j < rest.length := by simpa using hj
          rcases ih p.1 q.1 q.2 hr j hj' with ⟨hj2, cx, cy, hcx, hstep2⟩
          refine ⟨by simpa using hj2, cx, cy, ?_, by simpa using hstep2⟩
          rw [hcx, hstep ctx d p hs]

theorem genDepExpr_false {c : Container} {fuel : Nat} {ctx : GenCtx} {d : Dependency}
    (h : d.Standalone = false) :
    genDepExpr c (fuel + 1) ctx d =
      some (ctx, .ident ((getM d.Name ctx.Container).getD "")) := by
  simp [genDepExpr, h]

theorem genDepExpr_true_shape {c : Container} {fuel : Nat} {ctx : GenCtx}
    {d : Dependency} {r : GenCtx × Expr} (h : d.Standalone = true)
    (hr : genDepExpr c (fuel + 1) ctx d = some r) :
    ∃ f m args, getM d.Name c = some f ∧ r.2 = .call m f.Function args ∧
      args.length = f.Deps.length := by
  simp only [genDepExpr, h, if_true] at hr
  rcases hg : getM d.Name c with _ | f
  · rw [hg] at hr
    simp at hr
  · rw [hg] at hr
    have h2 : (match genArgsWith (fun cx sub => genDepExpr c fuel cx sub)
        (resolveImport ctx f.Module).1 f.Deps with
      | none => none
      | some p => some (p.1, .call (resolveImport ctx f.Module).2 f.Function p.2)) =
        some r := hr
    rcases ha : genArgsWith (fun cx sub => genDepExpr c fuel cx sub)
        (resolveImport ctx f.Module).1 f.Deps with _ | p
    · rw [ha] at h2
      simp at h2
    · rw [ha] at h2
      have h3 : some (p.1, Expr.call (resolveImport ctx f.Module).2 f.Function p.2) =
          some r := h2
      cases h3
      exact ⟨f, _, p.2, rfl, rfl, genArgsWith_length f.Deps _ p.1 p.2 (by rw [ha])⟩

theorem pairBefore_indexOf {l : List String} (hnd : l.Nodup) {x y : String}
    (h : PairBefore l x y) : l.indexOf x < l.indexOf y := by
  rcases h with ⟨i, j, hij, hx, hy⟩
  have hxm : x ∈ l := hx ▸ l.get_mem i.1 i.2
  have hym : y ∈ l := hy ▸ l.get_mem j.1 j.2
  have hxi : (⟨l.indexOf x, List.indexOf_lt_length.mpr hxm⟩ : Fin l.length) = i :=
    (List.Nodup.get_inj_iff hnd).mp ((List.indexOf_get _).trans hx.symm)
  have hyj : (⟨l.indexOf y, List.indexOf_lt_length.mpr hym⟩ : Fin l.length) = j :=
    (List.Nodup.get_inj_iff hnd).mp ((List.indexOf_get _).trans hy.symm)
  have h1 : l.indexOf x = i.1 := congrArg Fin.val hxi
  have h2 : l.indexOf y = j.1 := congrArg Fin.val hyj
  omega

/-- Fuel sufficiency for `generateDepExpr`: under a successful `BuildOrder`,
expanding a dependency placed at position `< fuel` of the order always
returns. -/
theorem genDepExpr_terminates {c : Container} {ord : List String}
    (hond : ord.Nodup) (hmem : ∀ x, x ∈ ord ↔ x ∈ keysOf c)
    (hprec : ∀ a f d, getM a c = some f → d ∈ f.Deps →
      isFinalIn c d.Name = false ∧ PairBefore ord d.Name a) :
    ∀ (fuel : Nat) (d : Dependency) (ctx : GenCtx), d.Name ∈ keysOf c →
      ord.indexOf d.Name < fuel →
      ∃ r, genDepExpr c fuel ctx d = some r := by
  intro fuel
  induction fuel with
  | zero =>
    intro d ctx _ hidx
    omega
  | succ fuel ih =>
    intro d ctx hkey hidx
    rcases hst : d.Standalone with _ | _
    · exact ⟨_, genDepExpr_false hst⟩
    · rcases Option.isSome_iff_exists.mp (getM_isSome_of_mem_keys hkey) with ⟨f, hf⟩
      have hsubs : ∀ (cx : GenCtx) (sub : Dependency), sub ∈ f.Deps →
          ∃ r, genDepExpr c fuel cx sub = some r := by
        intro cx sub hsub
        have hpb := (hprec d.Name f sub hf hsub).2
        have hsubkey : sub.Name ∈ keysOf c := (hmem _).mp (pairBefore_mem_left hpb)
        have hlt := pairBefore_indexOf hond hpb
        exact ih sub cx hsubkey (by omega)
      have hargs : ∀ (ds : List Dependency), (∀ sub ∈ ds, sub ∈ f.Deps) →
          ∀ cx, ∃ r, genArgsWith (fun cx sub => genDepExpr c fuel cx sub) cx ds =
            some r := by
        intro ds
        induction ds with
        | nil => exact fun _ cx => ⟨_, rfl⟩
        | cons s rest ihl =>
          intro hin cx
          rcases hsubs cx s (hin s (List.mem_cons_self _ _)) with ⟨r1, hr1⟩
          rcases ihl (fun u hu => hin u (List.mem_cons_of_mem _ hu)) r1.1 with ⟨r2, hr2⟩
          refine ⟨(r2.1, r1.2 :: r2.2), ?_⟩
          simp only [genArgsWith, hr1, hr2]
      rcases hargs f.Deps (fun _ hu => hu) (resolveImport ctx f.Module).1 with ⟨p, hp⟩
      refine ⟨((p.1, .call (resolveImport ctx f.Module).2 f.Function p.2)), ?_⟩
      simp only [genDepExpr, hst, if_true, hf, hp]

/-! ### Claim C10 -/

/-- C10: whenever `BuildOrder` succeeds on a container (so the graph is
acyclic and every dependency name keys a factory), the recursive standalone
expansion `generateDepExpr` returns for every dependency of every factory —
with the very fuel `c.length + 1` that `GenerateCode` uses, so the Go
recursion (which this fuel models) terminates: each standalone step moves to
a factory strictly earlier in the schedule, a strictly decreasing rank in an
acyclic graph.  `none` (fuel exhaustion, modelling divergence) is ruled
out. -/
theorem c10_generateDepExpr_terminates (c : Container) (ord : List String)
    (hnd : (keysOf c).Nodup) (hbo : BuildOrder c = .ok ord) :
    ∀ a f d ctx, getM a c = some f → d ∈ f.Deps →
      ∃ r, genDepExpr c (c.length + 1) ctx d = some r := by
  intro a f d ctx hf hd
  rcases buildOrder_ok_facts hnd hbo with ⟨hond, hmem, hprec⟩
  have hpb := (hprec a f d hf hd).2
  have hdkey : d.Name ∈ keysOf c := (hmem _).mp (pairBefore_mem_left hpb)
  have hdord : d.Name ∈ ord := pairBefore_mem_left hpb
  have hlen : ord.length ≤ c.length := by
    have hsub : ∀ x ∈ ord, x ∈ keysOf c := fun x hx => (hmem x).mp hx
    have := nodup_subset_length hond hsub
    simpa [keysOf] using this
  have hidx : ord.indexOf d.Name < ord.length := List.indexOf_lt_length.mpr hdord
  exact genDepExpr_terminates hond hmem hprec (c.length + 1) d ctx hdkey (by omega)

theorem c10_witness :
    (BuildOrder exampleCfg = .ok ["db", "cache", "server"] ∧
      getM "server" exampleCfg = some ({ F0 with
        Alias := "server", Function := "NewServer", Module := "/r/pkg",
        Deps := [⟨"db", false⟩, ⟨"cache", true⟩] }) ∧
      (⟨"cache", true⟩ : Dependency) ∈ [(⟨"db", false⟩ : Dependency), ⟨"cache", true⟩]) ∧
    (∃ r, genDepExpr exampleCfg (exampleCfg.length + 1) ⟨[], [], 0⟩ ⟨"cache", true⟩ =
      some r) :=
  ⟨⟨by decide, rfl, by decide⟩,
    c10_generateDepExpr_terminates exampleCfg ["db", "cache", "server"] (by decide)
      (by decide) "server" ({ F0 with
        Alias := "server", Function := "NewServer", Module := "/r/pkg",
        Deps := [⟨"db", false⟩, ⟨"cache", true⟩] }) ⟨"cache", true⟩ ⟨[], [], 0⟩ rfl
      (by decide)⟩

/-! ### Claim C6 -/

/-- The local identifier declared for an alias (`id := factory.Alias`). -/
def aliasOf (c : Container) (a : String) : String :=
  match getM a c with
  | some f => f.Alias
  | none => ""

theorem getM_sanitizeAll (c : Container) (root modN a : String) :
    getM a (sanitizeAll c root modN) =
      (getM a c).map (fun f => { f with
        Module := sanitizeModulePath f.Module root modN }) := by
  induction c with
  | nil => simp [sanitizeAll, getM]
  | cons p ps ih =>
    by_cases hp : p.1 = a
    · simp [sanitizeAll, getM, hp]
    · simpa [sanitizeAll, getM, hp] using ih

theorem keysOf_sanitizeAll (c : Container) (root modN : String) :
    keysOf (sanitizeAll c root modN) = keysOf c := by
  simp [keysOf, sanitizeAll, List.map_map]

theorem aliasOf_sanitizeAll (c : Container) (root modN a : String) :
    aliasOf (sanitizeAll c root modN) a = aliasOf c a := by
  rw [aliasOf, aliasOf, getM_sanitizeAll]
  cases getM a c <;> rfl

theorem isFinalIn_sanitizeAll (c : Container) (root modN a : String) :
    isFinalIn (sanitizeAll c root modN) a = isFinalIn c a := by
  rw [isFinalIn, isFinalIn, getM_sanitizeAll]
  cases getM a c <;> rfl

theorem sanitize_prec {c : Container} {ord : List String} {root modN : String}
    (hprec : ∀ a f d, getM a c = some f → d ∈ f.Deps →
      isFinalIn c d.Name = false ∧ PairBefore ord d.Name a) :
    ∀ a f d, getM a (sanitizeAll c root modN) = some f → d ∈ f.Deps →
      isFinalIn (sanitizeAll c root modN) d.Name = false ∧ PairBefore ord d.Name a := by
  intro a f2 d hf2 hd
  rw [getM_sanitizeAll] at hf2
  rcases hg : getM a c with _ | f
  · rw [hg] at hf2; cases hf2
  · rw [hg] at hf2
    have hf2' : { f with Module := sanitizeModulePath f.Module root modN } = f2 :=
      Option.some.inj hf2
    have hdeps : d ∈ f.Deps := by
      rw [← hf2'] at hd
      exact hd
    have := hprec a f d hg hdeps
    rw [isFinalIn_sanitizeAll]
    exact this

theorem genArgsWith_some {c : Container} {fuel : Nat} :
    ∀ (ds : List Dependency),
      (∀ (cx : GenCtx) (sub : Dependency), sub ∈ ds →
        ∃ r, genDepExpr c fuel cx sub = some r) →
      ∀ cx, ∃ r, genArgsWith (fun cx2 sub => genDepExpr c fuel cx2 sub) cx ds = some r := by
  intro ds
  induction ds with
  | nil => exact fun _ cx => ⟨_, rfl⟩
  | cons s rest ihl =>
    intro hin cx
    rcases hin cx s (List.mem_cons_self _ _) with ⟨r1, hr1⟩
    rcases ihl (fun cy u hu => hin cy u (List.mem_cons_of_mem _ hu)) r1.1 with ⟨r2, hr2⟩
    refine ⟨(r2.1, r1.2 :: r2.2), ?_⟩
    simp only [genArgsWith, hr1, hr2]

theorem genLoop_cons {c : Container} {fuel : Nat} {item : String} {rest : List String}
    {ctx : GenCtx} {decls : List GDecl} {marks : List String} :
    genLoop c fuel (item :: rest) ctx decls marks =
      (match getM item c with
       | none => none
       | some f =>
         match genArgsWith (fun cx sub => genDepExpr c fuel cx sub)
             { ctx with Container := setM ctx.Container item f.Alias } f.Deps with
         | none => none
         | some p =>
           genLoop c fuel rest (resolveImport p.1 f.Module).1
             (decls ++ [⟨f.Alias, .call (resolveImport p.1 f.Module).2 f.Function p.2,
               f.File, f.Pos⟩])
             (marks ++ [f.Alias])) := rfl

theorem before_mem_done {ord done rest : List String} {item x : String}
    (hond : ord.Nodup) (hpart : done ++ item :: rest = ord)
    (h : PairBefore ord x item) : x ∈ done := by
  subst hpart
  rcases h with ⟨i, j, hij, hxi, hyj⟩
  have hdlen : done.length < (done ++ item :: rest).length := by simp
  have hgetd : (done ++ item :: rest).get ⟨done.length, hdlen⟩ = item := by
    simp only [List.get_eq_getElem]
    rw [List.getElem_append_right (le_refl done.length)]
    simp
  have hj : j = ⟨done.length, hdlen⟩ :=
    (List.Nodup.get_inj_iff hond).mp (hyj.trans hgetd.symm)
  have hilt : i.1 < done.length := by
    rw [hj] at hij
    exact hij
  have hgeti : (done ++ item :: rest).get i = done.get ⟨i.1, hilt⟩ := by
    simp only [List.get_eq_getElem]
    exact List.getElem_append_left hilt
  rw [← hxi, hgeti]
  exact done.get_mem _ _

/-- Invariant lemma for the body-emission loop: processing the remaining
`todo` part of the order (the `done` part already registered in
`ctx.Container`) appends exactly one declaration per item — named by the
item's `Alias`, whose initializer calls the item's constructor with one
argument per dependency: a reference to the dependency's declared
identifier when it is not standalone (legal because the dependency was
scheduled strictly earlier), and an inline call to the dependency's own
constructor when it is standalone. -/
theorem genLoop_spec {c2 : Container} {ord : List String} {fuel : Nat}
    (hond : ord.Nodup)
    (hkeys : ∀ item, item ∈ ord → (getM item c2).isSome = true)
    (hsucc : ∀ (cx : GenCtx) (item : String) (f : Factory), item ∈ ord →
      getM item c2 = some f →
      ∃ r, genArgsWith (fun cx2 sub => genDepExpr c2 fuel cx2 sub) cx f.Deps = some r)
    (hprec2 : ∀ a f d, getM a c2 = some f → d ∈ f.Deps → PairBefore ord d.Name a) :
    ∀ (todo done : List String) (ctx : GenCtx) (decls : List GDecl) (marks : List String),
      done ++ todo = ord →
      (∀ x, getM x ctx.Container =
        (if x ∈ done then some (aliasOf c2 x) else none)) →
      ∃ ctx2 newDecls marks2,
        genLoop c2 fuel todo ctx decls marks = some (ctx2, decls ++ newDecls, marks2) ∧
        newDecls.length = todo.length ∧
        (∀ k (hk : k < todo.length), ∃ (hk2 : k < newDecls.length), ∃ f,
          getM (todo.get ⟨k, hk⟩) c2 = some f ∧
          (newDecls.get ⟨k, hk2⟩).name = f.Alias ∧
          ∃ m args, (newDecls.get ⟨k, hk2⟩).rhs = .call m f.Function args ∧
            args.length = f.Deps.length ∧
            ∀ j (hj : j < f.Deps.length), ∃ (hj2 : j < args.length),
              ((f.Deps.get ⟨j, hj⟩).Standalone = false →
                args.get ⟨j, hj2⟩ = .ident (aliasOf c2 (f.Deps.get ⟨j, hj⟩).Name) ∧
                PairBefore ord (f.Deps.get ⟨j, hj⟩).Name (todo.get ⟨k, hk⟩)) ∧
              ((f.Deps.get ⟨j, hj⟩).Standalone = true →
                ∃ fd m2 sargs, getM (f.Deps.get ⟨j, hj⟩).Name c2 = some fd ∧
                  args.get ⟨j, hj2⟩ = .call m2 fd.Function sargs ∧
                  sargs.length = fd.Deps.length)) := by
  intro todo
  induction todo with
  | nil =>
    intro done ctx decls marks hpart hinv
    refine ⟨ctx, [], marks, ?_, rfl, ?_⟩
    · simp [genLoop]
    · intro k hk
      simp at hk
  | cons item rest ih =>
    intro done ctx decls marks hpart hinv
    have hitem : item ∈ ord := by
      rw [← hpart]
      simp
    rcases Option.isSome_iff_exists.mp (hkeys item hitem) with ⟨f, hf⟩
    have hinv1 : ∀ x, getM x (setM ctx.Container item f.Alias) =
        (if x ∈ done ++ [item] then some (aliasOf c2 x) else none) := by
      intro x
      by_cases hx : x = item
      · subst hx
        rw [setM_get_self]
        have halias : aliasOf c2 x = f.Alias := by rw [aliasOf, hf]
        simp [halias]
      · rw [setM_get_ne _ _ _ _ hx, hinv x]
        by_cases hxd : x ∈ done <;> simp [hxd, hx]
    rcases hsucc { ctx with Container := setM ctx.Container item f.Alias } item f
        hitem hf with ⟨p, hp⟩
    rcases p with ⟨ctxp, args⟩
    have hcontp : ctxp.Container = setM ctx.Container item f.Alias :=
      genArgsWith_pres (genDepExpr_container c2 fuel) f.Deps _ (ctxp, args) hp
    have hargslen : args.length = f.Deps.length :=
      genArgsWith_length f.Deps _ ctxp args hp
    have hmode : ∀ j (hj : j < f.Deps.length), ∃ (hj2 : j < args.length),
        ((f.Deps.get ⟨j, hj⟩).Standalone = false →
          args.get ⟨j, hj2⟩ = .ident (aliasOf c2 (f.Deps.get ⟨j, hj⟩).Name) ∧
          PairBefore ord (f.Deps.get ⟨j, hj⟩).Name item) ∧
        ((f.Deps.get ⟨j, hj⟩).Standalone = true →
          ∃ fd m2 sargs, getM (f.Deps.get ⟨j, hj⟩).Name c2 = some fd ∧
            args.get ⟨j, hj2⟩ = .call m2 fd.Function sargs ∧
            sargs.length = fd.Deps.length) := by
      intro j hj
      rcases genArgsWith_elem (genDepExpr_container c2 fuel) f.Deps _ ctxp args hp j hj
        with ⟨hj2, cx, cy, hcx, hstep2⟩
      refine ⟨hj2, ?_, ?_⟩
      · intro hst
        have hpb := hprec2 item f _ hf (f.Deps.get_mem j hj)
        have hdone : (f.Deps.get ⟨j, hj⟩).Name ∈ done :=
          before_mem_done hond hpart hpb
        refine ⟨?_, hpb⟩
        match fuel, hstep2 with
        | 0, hstep2 => cases hstep2
        | fuel + 1, hstep2 =>
          rw [genDepExpr_false hst] at hstep2
          have hpair := Option.some.inj hstep2
          have hsnd : Expr.ident
              ((getM (f.Deps.get ⟨j, hj⟩).Name cx.Container).getD "") =
              args.get ⟨j, hj2⟩ := congrArg Prod.snd hpair
          rw [← hsnd, hcx, hinv1, if_pos (List.mem_append_left [item] hdone)]
          rfl
      · intro hst
        match fuel, hstep2 with
        | 0, hstep2 => cases hstep2
        | fuel + 1, hstep2 =>
          rcases genDepExpr_true_shape hst hstep2 with ⟨fd, m2, sargs, hfd, hshape, hslen⟩
          exact ⟨fd, m2, sargs, hfd, hshape, hslen⟩
    have hinv2 : ∀ x, getM x (resolveImport ctxp f.Module).1.Container =
        (if x ∈ done ++ [item] then some (aliasOf c2 x) else none) := by
      intro x
      rw [resolveImport_container, hcontp]
      exact hinv1 x
    have hpart2 : (done ++ [item]) ++ rest = ord := by
      rw [← hpart]
      simp
    rcases ih (done ++ [item]) (resolveImport ctxp f.Module).1
        (decls ++ [⟨f.Alias, .call (resolveImport ctxp f.Module).2 f.Function args,
          f.File, f.Pos⟩])
        (marks ++ [f.Alias]) hpart2 hinv2 with ⟨ctxF, newRest, marksF, hrun, hlenF, hidxF⟩
    refine ⟨ctxF,
      ⟨f.Alias, .call (resolveImport ctxp f.Module).2 f.Function args, f.File, f.Pos⟩ ::
        newRest, marksF, ?_, by simp [hlenF], ?_⟩
    · rw [genLoop_cons, hf]
      show (match genArgsWith (fun cx sub => genDepExpr c2 fuel cx sub)
          { ctx with Container := setM ctx.Container item f.Alias } f.Deps with
        | none => none
        | some p =>
          genLoop c2 fuel rest (resolveImport p.1 f.Module).1
            (decls ++ [(⟨f.Alias, .call (resolveImport p.1 f.Module).2 f.Function p.2,
              f.File, f.Pos⟩ : GDecl)])
            (marks ++ [f.Alias])) = _
      rw [hp]
      show genLoop c2 fuel rest (resolveImport ctxp f.Module).1
          (decls ++ [⟨f.Alias, .call (resolveImport ctxp f.Module).2 f.Function args,
            f.File, f.Pos⟩])
          (marks ++ [f.Alias]) = _
      rw [hrun]
      simp
    · intro k hk
      match k with
      | 0 =>
        refine ⟨by simp, f, ?_, rfl, (resolveImport ctxp f.Module).2, args, rfl,
          hargslen, ?_⟩
        · simpa using hf
        · intro j hj
          rcases hmode j hj with ⟨hj2, hfalse, htrue⟩
          exact ⟨hj2, fun hst => by simpa using hfalse hst, htrue⟩
      | k + 1 =>
        have hk' : k < rest.length := by simpa using hk
        rcases hidxF k hk' with ⟨hk2, fK, hfK, hname, m, argsK, hrhs, hlenK, hmodes⟩
        refine ⟨by simpa using hk2, fK, by simpa using hfK, by simpa using hname,
          m, argsK, by simpa using hrhs, hlenK, ?_⟩
        intro j hj
        rcases hmodes j hj with ⟨hj2, hfalse, htrue⟩
        refine ⟨hj2, fun hst => ?_, htrue⟩
        rcases hfalse hst with ⟨hid, hpb⟩
        exact ⟨hid, by simpa using hpb⟩

/-- The dependency-rendering contract of the emitted file: one top-level
declaration per scheduled alias (so a use site never adds a declaration),
each named by its factory's `Alias` and initialized by a call to the
factory's constructor with one argument per dependency; a non-standalone
dependency argument is the bare identifier already declared for that alias,
a standalone dependency argument is an inline nested call to that alias's
own constructor, with one argument per inner dependency in turn. -/
def RendersDeps (c : Container) (ord : List String) (gf : GenFile) : Prop :=
  gf.decls.length = ord.length ∧
  ∀ k (hk : k < ord.length), ∃ (hk2 : k < gf.decls.length), ∃ f,
    getM (ord.get ⟨k, hk⟩) c = some f ∧
    (gf.decls.get ⟨k, hk2⟩).name = f.Alias ∧
    ∃ m args, (gf.decls.get ⟨k, hk2⟩).rhs = .call m f.Function args ∧
      args.length = f.Deps.length ∧
      ∀ j (hj : j < f.Deps.length), ∃ (hj2 : j < args.length),
        ((f.Deps.get ⟨j, hj⟩).Standalone = false →
          args.get ⟨j, hj2⟩ = .ident (aliasOf c (f.Deps.get ⟨j, hj⟩).Name)) ∧
        ((f.Deps.get ⟨j, hj⟩).Standalone = true →
          ∃ fd m2 sargs, getM (f.Deps.get ⟨j, hj⟩).Name c = some fd ∧
            args.get ⟨j, hj2⟩ = .call m2 fd.Function sargs ∧
            sargs.length = fd.Deps.length)

/-- C6: in the file emitted by `GenerateCode`, the declarations are exactly
one per scheduled alias — so a standalone use site introduces no additional
top-level declaration — and every dependency argument is rendered by mode:
non-standalone as a reference to the single already-declared identifier of
that alias, standalone as an inline nested constructor call for that alias's
factory whose own dependencies are expanded the same way. -/
theorem c6_dep_rendering (root modN : String) (c : Container) (ord : List String)
    (gf : GenFile) (hnd : (keysOf c).Nodup) (hbo : BuildOrder c = .ok ord)
    (hgen : GenerateCode root modN c = some (.ok gf)) :
    RendersDeps c ord gf := by
  rcases buildOrder_ok_facts hnd hbo with ⟨hond, hmem, hprec⟩
  have hprec2 : ∀ a f d, getM a (sanitizeAll c root modN) = some f → d ∈ f.Deps →
      isFinalIn (sanitizeAll c root modN) d.Name = false ∧ PairBefore ord d.Name a :=
    sanitize_prec hprec
  have hmem2 : ∀ x, x ∈ ord ↔ x ∈ keysOf (sanitizeAll c root modN) := by
    intro x
    rw [keysOf_sanitizeAll]
    exact hmem x
  have hterm := genDepExpr_terminates hond hmem2 hprec2
  have hlenord : ord.length ≤ c.length := by
    have hsub : ∀ x ∈ ord, x ∈ keysOf c := fun x hx => (hmem x).mp hx
    have := nodup_subset_length hond hsub
    simpa [keysOf] using this
  have hsucc : ∀ (cx : GenCtx) (item : String) (f : Factory), item ∈ ord →
      getM item (sanitizeAll c root modN) = some f →
      ∃ r, genArgsWith (fun cx2 sub => genDepExpr (sanitizeAll c root modN)
        (c.length + 1) cx2 sub) cx f.Deps = some r := by
    intro cx item f hit hf
    apply genArgsWith_some
    intro cy sub hsub
    have hpb := (hprec2 item f sub hf hsub).2
    have hsubord : sub.Name ∈ ord := pairBefore_mem_left hpb
    have hsubkey : sub.Name ∈ keysOf (sanitizeAll c root modN) := (hmem2 _).mp hsubord
    have hidx : ord.indexOf sub.Name < ord.length := List.indexOf_lt_length.mpr hsubord
    exact hterm (c.length + 1) sub cy hsubkey (by omega)
  have hkeys : ∀ item, item ∈ ord →
      (getM item (sanitizeAll c root modN)).isSome = true := by
    intro item hit
    exact getM_isSome_of_mem_keys ((hmem2 item).mp hit)
  have hloop := genLoop_spec hond hkeys hsucc
    (fun a f d hf hd => (hprec2 a f d hf hd).2) ord [] ⟨[], [], 0⟩ [] []
    (by simp) (by intro x; simp [getM])
  rcases hloop with ⟨ctx2, newDecls, marks2, hrun, hlen, hidxs⟩
  rw [List.nil_append] at hrun
  simp only [GenerateCode] at hgen
  rw [hbo] at hgen
  have hgen2 : (match genLoop (sanitizeAll c root modN) (c.length + 1) ord
      ⟨[], [], 0⟩ [] [] with
    | none => none
    | some r =>
      some (Except.ok
        (⟨(if r.1.ImportID.isEmpty then []
           else ("dix", "github.com/smtdfc/dix") :: r.1.ImportID.map (fun p => (p.2, p.1))),
          r.2.1, r.2.2⟩ : GenFile))) = some (.ok gf) := hgen
  rw [hrun] at hgen2
  have hgen3 : some (Except.ok
      (⟨(if ctx2.ImportID.isEmpty then []
         else ("dix", "github.com/smtdfc/dix") :: ctx2.ImportID.map (fun p => (p.2, p.1))),
        newDecls, marks2⟩ : GenFile)) = some (.ok gf) := hgen2
  have hgf : (⟨(if ctx2.ImportID.isEmpty then []
      else ("dix", "github.com/smtdfc/dix") :: ctx2.ImportID.map (fun p => (p.2, p.1))),
      newDecls, marks2⟩ : GenFile) = gf :=
    Except.ok.inj (Option.some.inj hgen3)
  subst hgf
  constructor
  · exact hlen
  · intro k hk
    rcases hidxs k hk with ⟨hk2, f2, hf2, hname, m, args, hrhs, hargslen, hmodes⟩
    rw [getM_sanitizeAll] at hf2
    rcases Option.map_eq_some'.mp hf2 with ⟨f, hf, hfeq⟩
    subst hfeq
    refine ⟨hk2, f, hf, hname, m, args, hrhs, hargslen, ?_⟩
    intro j hj
    rcases hmodes j hj with ⟨hj2, hfalse, htrue⟩
    refine ⟨hj2, ?_, ?_⟩
    · intro hst
      have := (hfalse hst).1
      rw [aliasOf_sanitizeAll] at this
      exact this
    · intro hst
      rcases htrue hst with ⟨fd2, m2, sargs, hfd2, hshape, hslen⟩
      rw [getM_sanitizeAll] at hfd2
      rcases Option.map_eq_some'.mp hfd2 with ⟨fd, hfd, hfdeq⟩
      subst hfdeq
      exact ⟨fd, m2, sargs, hfd, hshape, hslen⟩

/-- The file `GenerateCode` emits for `exampleCfg`: `cache` is standalone at
the `server` use site, so `server`'s initializer inlines
`NewCache(db)` while `cache` keeps its single top-level declaration. -/
def c6wit : GenFile :=
  ⟨[("dix", "github.com/smtdfc/dix"), ("id_1", "m/pkg")],
   [⟨"db", .call "id_1" "NewDB" [], "", ""⟩,
    ⟨"cache", .call "id_1" "NewCache" [.ident "db"], "", ""⟩,
    ⟨"server", .call "id_1" "NewServer"
      [.ident "db", .call "id_1" "NewCache" [.ident "db"]], "", ""⟩],
   ["db", "cache", "server"]⟩

theorem c6_witness :
    ((keysOf exampleCfg).Nodup ∧
      BuildOrder exampleCfg = .ok ["db", "cache", "server"] ∧
      GenerateCode "/r" "m" exampleCfg = some (.ok c6wit)) ∧
    RendersDeps exampleCfg ["db", "cache", "server"] c6wit :=
  ⟨⟨by decide, by decide, rfl⟩,
    c6_dep_rendering "/r" "m" exampleCfg ["db", "cache", "server"] c6wit
      (by decide) (by decide) rfl⟩

/-! ### Claim C7 -/

/-- One enumeration of a two-factory container map. -/
def c7a : Container :=
  [("a", { F0 with Alias := "a", Function := "NA", Module := "/r/pkg" }),
   ("b", { F0 with Alias := "b", Function := "NB", Module := "/r/pkg" })]

/-- The other enumeration of the same map: identical key-value lookups,
opposite iteration order (Go's map range order is randomized per run). -/
def c7b : Container :=
  [("b", { F0 with Alias := "b", Function := "NB", Module := "/r/pkg" }),
   ("a", { F0 with Alias := "a", Function := "NA", Module := "/r/pkg" })]

/-- The declaration names of a generator run, the projection on which the two
enumerations visibly disagree. -/
def runNames (root modN : String) (c : Container) :
    Option (Except BuildErr (List String)) :=
  (GenerateCode root modN c).map (Except.map (fun gf => gf.decls.map (fun d => d.name)))

theorem c7_counterexample :
    (∀ x, getM x c7a = getM x c7b) ∧
    (keysOf c7a).Nodup ∧ (keysOf c7b).Nodup ∧
    GenerateCode "/r" "m" c7a ≠ GenerateCode "/r" "m" c7b := by
  refine ⟨?_, by decide, by decide, ?_⟩
  · intro x
    by_cases ha : x = "a"
    · subst ha
      rfl
    · by_cases hb : x = "b"
      · subst hb
        rfl
      · have ha2 : ¬("a" = x) := fun h => ha h.symm
        have hb2 : ¬("b" = x) := fun h => hb h.symm
        simp [c7a, c7b, getM, ha2, hb2]
  · intro h
    have hnames := congrArg
      (Option.map (Except.map (fun gf => gf.decls.map (fun d => d.name)))) h
    have hA : (GenerateCode "/r" "m" c7a).map
        (Except.map (fun gf => gf.decls.map (fun d => d.name))) =
        some (.ok ["a", "b"]) := rfl
    have hB : (GenerateCode "/r" "m" c7b).map
        (Except.map (fun gf => gf.decls.map (fun d => d.name))) =
        some (.ok ["b", "a"]) := rfl
    rw [hA, hB] at hnames
    exact absurd hnames (by decide)

theorem c7_pointwise : ∀ x, getM x c7a = getM x c7b := by
  intro x
  by_cases ha : x = "a"
  · subst ha
    rfl
  · by_cases hb : x = "b"
    · subst hb
      rfl
    · have ha2 : ¬("a" = x) := fun h => ha h.symm
      have hb2 : ¬("b" = x) := fun h => hb h.symm
      simp [c7a, c7b, getM, ha2, hb2]

/-- C7 (amended): the pipeline is deterministic only for a fixed container
enumeration.  Across two enumerations of the same map (pointwise-equal
lookups, duplicate-free keys) the successful schedules — and hence the
declaration order of the generated file — agree only up to permutation. -/
theorem c7_amended_enumeration (c1 c2 : Container) (o1 o2 : List String)
    (h12 : ∀ x, getM x c1 = getM x c2)
    (hnd1 : (keysOf c1).Nodup) (hnd2 : (keysOf c2).Nodup)
    (hb1 : BuildOrder c1 = .ok o1) (hb2 : BuildOrder c2 = .ok o2) :
    o1.Perm o2 := by
  rcases buildOrder_ok_facts hnd1 hb1 with ⟨hond1, hmem1, _⟩
  rcases buildOrder_ok_facts hnd2 hb2 with ⟨hond2, hmem2, _⟩
  have hkeys : ∀ x, x ∈ keysOf c1 ↔ x ∈ keysOf c2 := by
    intro x
    constructor
    · intro hx
      rcases Option.isSome_iff_exists.mp (getM_isSome_of_mem_keys hx) with ⟨f, hf⟩
      have hf2 : getM x c2 = some f := by
        rw [← h12 x]
        exact hf
      exact getM_mem_keys hf2
    · intro hx
      rcases Option.isSome_iff_exists.mp (getM_isSome_of_mem_keys hx) with ⟨f, hf⟩
      have hf2 : getM x c1 = some f := by
        rw [h12 x]
        exact hf
      exact getM_mem_keys hf2
  refine (List.perm_ext_iff_of_nodup hond1 hond2).mpr ?_
  intro a
  rw [hmem1 a, hmem2 a]
  exact hkeys a

theorem c7_witness :
    ((∀ x, getM x c7a = getM x c7b) ∧
      (keysOf c7a).Nodup ∧ (keysOf c7b).Nodup ∧
      BuildOrder c7a = .ok ["a", "b"] ∧ BuildOrder c7b = .ok ["b", "a"]) ∧
    List.Perm ["a", "b"] ["b", "a"] :=
  ⟨⟨c7_pointwise, by decide, by decide, by decide, by decide⟩,
    c7_amended_enumeration c7a c7b ["a", "b"] ["b", "a"] c7_pointwise
      (by decide) (by decide) (by decide) (by decide)⟩
